import Mathlib

/-!
Verification development for the `louds` fixed-capacity generational object
pool (C++ module `louds.cppm` / `louds_impl.cpp`).

The pool state is shallowly embedded: the C++ arrays `Node nodes[MAX_THINGS]`
and `ThingIdx next_free[MAX_THINGS]` become functions `Nat → Node T` and
`Nat → Nat` together with the scalar `first_free`.  Machine integers
(`uint32_t` generations) are modelled as `Nat` with an explicit
`% 2^32` where the C++ arithmetic can wrap.  Disk I/O is abstracted as a
value of type `Option (SaveHeader × (Nat → Nat) × (Nat → Node T))`:
`none` models an unreadable or short file, `some` a complete read.
-/

set_option linter.unusedSectionVars false

namespace Louds

/-- Width of the C++ `uint32_t` `Generation` counter. -/
def genWidth : Nat := 4294967296

/-- `ThingRef`: a `(index, generation)` handle (`louds.cppm`, `struct ThingRef`). -/
structure ThingRef where
  index : Nat
  generation : Nat
deriving DecidableEq, Repr

/-- `NilRef = {0, 0}` (`louds.cppm`). -/
def NilRef : ThingRef := ⟨0, 0⟩

/-- One pool slot (`louds.cppm`, `struct Node`). -/
structure Node (T : Type) where
  generation : Nat := 0
  is_active : Bool := false
  parent : Nat := 0
  first_child : Nat := 0
  next_sibling : Nat := 0
  prev_sibling : Nat := 0
  data : T
deriving DecidableEq, Repr

/-- A value-initialised node, `Node{}` in C++. -/
def defaultNode (T : Type) [Inhabited T] : Node T :=
  { data := default }

/-- The pool state (`louds.cppm`, class `ThingPool`): slot array, free-list
array and free-list head.  The compile-time capacity `MAX_THINGS` is passed
to the operations that consult it. -/
structure ThingPool (T : Type) where
  nodes : Nat → Node T
  next_free : Nat → Nat
  first_free : Nat

/-- Pointwise array update, modelling `a[i] = v`. -/
def upd {α : Type} (f : Nat → α) (i : Nat) (a : α) : Nat → α :=
  fun j => if j = i then a else f j

variable {T : Type} [Inhabited T]

/-- `get_node` (`louds.cppm` lines 70-75) returns a reference into the slot
array; this function computes the index of the slot that reference denotes:
slot 0 when the handle's index is 0 or out of range or its generation does
not match, the handle's own index otherwise.  Note the C++ code does NOT
consult `is_active` here. -/
def getNodeIdx (N : Nat) (p : ThingPool T) (ref : ThingRef) : Nat :=
  if ref.index = 0 ∨ N ≤ ref.index ∨ (p.nodes ref.index).generation ≠ ref.generation
  then 0 else ref.index

/-- `is_valid` (`louds.cppm` lines 128-133). -/
def isValid (N : Nat) (p : ThingPool T) (ref : ThingRef) : Bool :=
  decide (0 < ref.index) && decide (ref.index < N) &&
    (p.nodes ref.index).is_active &&
    ((p.nodes ref.index).generation == ref.generation)

/-- `get` in a release build (assertion disabled): the payload of the slot
`get_node` resolves to (`louds.cppm` lines 135-138). -/
def getData (N : Nat) (p : ThingPool T) (ref : ThingRef) : T :=
  (p.nodes (getNodeIdx N p ref)).data

/-- `nodes[i].parent = v` on the live pool. -/
def setParentF (p : ThingPool T) (i v : Nat) : ThingPool T :=
  { p with nodes := upd p.nodes i { p.nodes i with parent := v } }

/-- `nodes[i].first_child = v` on the live pool. -/
def setFirstChildF (p : ThingPool T) (i v : Nat) : ThingPool T :=
  { p with nodes := upd p.nodes i { p.nodes i with first_child := v } }

/-- `nodes[i].next_sibling = v` on the live pool. -/
def setNextF (p : ThingPool T) (i v : Nat) : ThingPool T :=
  { p with nodes := upd p.nodes i { p.nodes i with next_sibling := v } }

/-- `nodes[i].prev_sibling = v` on the live pool. -/
def setPrevF (p : ThingPool T) (i v : Nat) : ThingPool T :=
  { p with nodes := upd p.nodes i { p.nodes i with prev_sibling := v } }

/-- `detach` (`louds.cppm` lines 162-178), with every field read placed at
the program point where the C++ reference reads it. -/
def detachOp (N : Nat) (p : ThingPool T) (ref : ThingRef) : ThingPool T :=
  let i := getNodeIdx N p ref
  if i = 0 then p
  else if (p.nodes i).parent = 0 then p
  else
    let pa := (p.nodes i).parent
    let p1 :=
      if (p.nodes i).next_sibling = ref.index then
        setFirstChildF p pa 0
      else
        let q1 := setNextF p ((p.nodes i).prev_sibling) ((p.nodes i).next_sibling)
        let q2 := setPrevF q1 ((q1.nodes i).next_sibling) ((q1.nodes i).prev_sibling)
        if (q2.nodes pa).first_child = ref.index then
          setFirstChildF q2 pa ((q2.nodes i).next_sibling)
        else q2
    setPrevF (setNextF (setParentF p1 i 0) i 0) i 0

/-- `attach_child` (`louds.cppm` lines 140-160).  The C++ binds references
`parent`/`child` via `get_node` up front; the no-op test `&parent ==
&nodes[0] || &child == &nodes[0]` becomes a test on the resolved indices. -/
def attachChild (N : Nat) (p : ThingPool T) (pr cr : ThingRef) : ThingPool T :=
  let pidx := getNodeIdx N p pr
  let cidx := getNodeIdx N p cr
  if pidx = 0 ∨ cidx = 0 then p
  else
    let p1 := if (p.nodes cidx).parent ≠ 0 then detachOp N p cr else p
    let p2 := setParentF p1 cidx pr.index
    if (p2.nodes pidx).first_child = 0 then
      setPrevF (setNextF (setFirstChildF p2 pidx cr.index) cidx cr.index) cidx cr.index
    else
      let fc := (p2.nodes pidx).first_child
      let lc := (p2.nodes fc).prev_sibling
      setPrevF (setNextF (setPrevF (setNextF p2 lc cr.index) cidx lc) cidx fc) fc cr.index

/-- `spawn` (`louds.cppm` lines 112-121).  The generation bump is `uint32_t`
arithmetic, hence the `% genWidth`. -/
def spawnOp (p : ThingPool T) : ThingPool T × ThingRef :=
  if p.first_free = 0 then (p, NilRef)
  else
    let idx := p.first_free
    let newGen := ((p.nodes idx).generation + 1) % genWidth
    ({ p with
        nodes := upd p.nodes idx { defaultNode T with generation := newGen, is_active := true },
        first_free := p.next_free idx },
     ⟨idx, newGen⟩)

mutual
/-- `destroy_idx_recursive` (`louds.cppm` lines 77-102), embedded with a
fuel argument: `none` means the C++ recursion would not have returned
within `fuel` nested calls. -/
def destroyRec (N : Nat) : Nat → ThingPool T → Nat → Option (ThingPool T)
  | 0, _, _ => none
  | fuel + 1, p, idx =>
    if (p.nodes idx).is_active = false then some p
    else
      match (if (p.nodes idx).first_child ≠ 0 then
              destroyLoop N fuel p ((p.nodes idx).first_child) ((p.nodes idx).first_child)
             else some p) with
      | none => none
      | some p1 =>
        let p2 := if (p1.nodes idx).parent ≠ 0 then
                    detachOp N p1 ⟨idx, (p1.nodes idx).generation⟩
                  else p1
        let p3 : ThingPool T :=
          { p2 with nodes := upd p2.nodes idx { defaultNode T with generation := (p2.nodes idx).generation } }
        some { p3 with next_free := upd p3.next_free idx p3.first_free, first_free := idx }
/-- The child-ring `do`/`while` loop inside `destroy_idx_recursive`
(`louds.cppm` lines 83-88).  It reads `next_sibling` from the pool state
BEFORE recursing into the child, exactly as the C++ snapshots
`next_child`. -/
def destroyLoop (N : Nat) : Nat → ThingPool T → Nat → Nat → Option (ThingPool T)
  | 0, _, _, _ => none
  | fuel + 1, p, child, first =>
    match destroyRec N fuel p child with
    | none => none
    | some p1 =>
      if (p.nodes child).next_sibling ≠ 0 ∧ (p.nodes child).next_sibling ≠ first then
        destroyLoop N fuel p1 ((p.nodes child).next_sibling) first
      else some p1
end

/-- Fuel with which the public `destroy` runs the recursion.  `3 * N + 3`
strictly exceeds the nesting depth the C++ recursion can reach on any
well-formed pool of capacity `N` (proved below), so on such pools the
result is never `none`. -/
def destroyFuel (N : Nat) : Nat := 3 * N + 3

/-- `destroy` (`louds.cppm` lines 123-126). -/
def destroyOp (N : Nat) (p : ThingPool T) (ref : ThingRef) : Option (ThingPool T) :=
  if isValid N p ref = false then some p
  else destroyRec N (destroyFuel N) p ref.index

/-- The `ThingPool()` constructor (`louds.cppm` lines 105-110): zero-filled
arrays, free-list `1 → 2 → ⋯ → N-1 → 0`, head at 1. -/
def initPool (T : Type) [Inhabited T] (N : Nat) : ThingPool T :=
  { nodes := fun _ => defaultNode T,
    next_free := fun i => if 1 ≤ i ∧ i < N - 1 then i + 1 else 0,
    first_free := 1 }

/-- `SaveHeader` (`louds.cppm` lines 58-64); the four magic bytes are the
ASCII codes of `'L' 'O' 'G' 'C'`. -/
structure SaveHeader where
  magic0 : Nat
  magic1 : Nat
  magic2 : Nat
  magic3 : Nat
  version : Nat
  max_things : Nat
  node_size : Nat
  first_free : Nat
deriving DecidableEq, Repr

/-- `save_to_file` (`louds.cppm` lines 238-246): the three regions handed to
`write_pool_to_disk`.  `nodeSize` stands for the compile-time constant
`sizeof(Node)`. -/
def saveToFile (N nodeSize : Nat) (p : ThingPool T) :
    SaveHeader × (Nat → Nat) × (Nat → Node T) :=
  ({ magic0 := 76, magic1 := 79, magic2 := 71, magic3 := 67,
     version := 1, max_things := N, node_size := nodeSize,
     first_free := p.first_free },
   p.next_free, p.nodes)

/-- `load_from_file` (`louds.cppm` lines 248-269).  The outcome of
`read_pool_from_disk` is the `disk` argument: `none` for an unopenable file
or a short read (`louds_impl.cpp` lines 29-46), `some` for a complete read
of header, free-list and node regions. -/
def loadFromFile (N nodeSize : Nat) (p : ThingPool T)
    (disk : Option (SaveHeader × (Nat → Nat) × (Nat → Node T))) :
    Bool × ThingPool T :=
  match disk with
  | none => (false, p)
  | some (h, nf, nd) =>
    if h.magic0 ≠ 76 ∨ h.magic1 ≠ 79 ∨ h.magic2 ≠ 71 ∨ h.magic3 ≠ 67 then (false, p)
    else if h.max_things ≠ N ∨ h.node_size ≠ nodeSize then (false, p)
    else if N ≤ h.first_free then (false, p)
    else (true, { nodes := nd, next_free := nf, first_free := h.first_free })

/-- Pool together with the deferred-destroy queue.
Modelled from the spec: the deferred-destroy queue (`destroy_later`,
`flush_destroy_later`, spec §4.6) is declared in the repository's README and
exercised by its tests, but its implementation is not among the provided
source files; the queue is a bounded list of handles in insertion order. -/
structure QueuePool (T : Type) where
  pool : ThingPool T
  queue : List ThingRef

/-- Modelled from the spec (§4.6): `destroy_later(h)` returns `false` if
`h.index = 0` or the queue is full (capacity `N - 1`); otherwise appends
`h` with no validity check and no deduplication. -/
def destroyLater (N : Nat) (s : QueuePool T) (ref : ThingRef) : Bool × QueuePool T :=
  if ref.index = 0 ∨ N - 1 ≤ s.queue.length then (false, s)
  else (true, { s with queue := s.queue ++ [ref] })

/-- Modelled from the spec (§4.6): the flush loop walks the queue in
insertion order, records whether each entry is valid at the moment of its
own `destroy` call, and performs that destroy. -/
def flushAux (N : Nat) : ThingPool T → List ThingRef → Option (ThingPool T × List Bool)
  | p, [] => some (p, [])
  | p, h :: rest =>
    match destroyOp N p h with
    | none => none
    | some p1 =>
      match flushAux N p1 rest with
      | none => none
      | some (p2, flags) => some (p2, isValid N p h :: flags)

/-- Modelled from the spec (§4.6): `flush_destroy_later()` destroys every
queued entry in insertion order, empties the queue, and returns the number
of entries that were valid at the moment of their individual destroy call. -/
def flushDestroyLater (N : Nat) (s : QueuePool T) : Option (Nat × QueuePool T) :=
  match flushAux N s.pool s.queue with
  | none => none
  | some (p2, flags) => some (flags.count true, { pool := p2, queue := [] })

/-- Generations and activity after a state change: every slot keeps its
generation and no inactive slot becomes active.  `destroy` steps satisfy
this. -/
def GenActMono (p q : ThingPool T) : Prop :=
  ∀ j : Nat, (q.nodes j).generation = (p.nodes j).generation ∧
    ((q.nodes j).is_active = true → (p.nodes j).is_active = true)

/-- A state change that rewrites hierarchy links only: every slot keeps its
generation, activity and payload.  `attach_child` and `detach` steps
satisfy this. -/
def LinkOnly (p q : ThingPool T) : Prop :=
  ∀ j : Nat, (q.nodes j).generation = (p.nodes j).generation ∧
    (q.nodes j).is_active = (p.nodes j).is_active ∧
    (q.nodes j).data = (p.nodes j).data

mutual
/-- A finite rose tree of slot indices: the shape `destroy` recurses over. -/
inductive DTree where
  | mk : Nat → DForest → DTree
/-- A list of sibling subtrees (one parent's child ring, in ring order). -/
inductive DForest where
  | nil : DForest
  | cons : DTree → DForest → DForest
end

/-- The root index of a tree. -/
def DTree.root : DTree → Nat
  | .mk i _ => i

mutual
/-- All slot indices of a tree (root first). -/
def nodesT : DTree → List Nat
  | .mk i fs => i :: nodesF fs
/-- All slot indices of a forest. -/
def nodesF : DForest → List Nat
  | .nil => []
  | .cons t ts => nodesT t ++ nodesF ts
end

/-- The root indices of a forest, in sibling order. -/
def rootsF : DForest → List Nat
  | .nil => []
  | .cons t ts => t.root :: rootsF ts

mutual
/-- Depth-first post-order listing of a tree: every node appears after all
of its descendants. -/
def postT : DTree → List Nat
  | .mk i fs => postF fs ++ [i]
/-- Depth-first post-order listing of a forest. -/
def postF : DForest → List Nat
  | .nil => []
  | .cons t ts => postT t ++ postF ts
end

mutual
/-- Number of nodes of a tree. -/
def sizeT : DTree → Nat
  | .mk _ fs => 1 + sizeF fs
/-- Number of nodes of a forest. -/
def sizeF : DForest → Nat
  | .nil => 0
  | .cons t ts => sizeT t + sizeF ts
end

mutual
/-- Every subtree of a tree (the tree itself included). -/
def subtreesT : DTree → List DTree
  | .mk i fs => .mk i fs :: subtreesF fs
/-- Every subtree of a forest. -/
def subtreesF : DForest → List DTree
  | .nil => []
  | .cons t ts => subtreesT t ++ subtreesF ts
end

mutual
/-- Fuel sufficient for `destroyRec` on a matching tree (proved below). -/
def tfFuel : DTree → Nat
  | .mk _ fs => 1 + lfFuel fs
/-- Fuel sufficient for `destroyLoop` on a matching forest (proved below). -/
def lfFuel : DForest → Nat
  | .nil => 0
  | .cons t ts => 1 + max (tfFuel t) (max (lfFuel ts) 2)
end

/-- Consecutive `next_sibling` links along a list of slot indices. -/
def chainNextB (p : ThingPool T) : List Nat → Bool
  | [] => true
  | [_] => true
  | a :: b :: rest => ((p.nodes a).next_sibling == b) && chainNextB p (b :: rest)

/-- Consecutive `prev_sibling` links along a list of slot indices. -/
def chainPrevB (p : ThingPool T) : List Nat → Bool
  | [] => true
  | [_] => true
  | a :: b :: rest => ((p.nodes b).prev_sibling == a) && chainPrevB p (b :: rest)

/-- `rs` is a circular doubly-linked sibling ring under parent `i`:
consecutive `next`/`prev` links, the wrap-around links between last and
first element, and every element's `parent` field naming `i`. -/
def ringBool (p : ThingPool T) (i : Nat) (rs : List Nat) : Bool :=
  match rs with
  | [] => true
  | r :: rest =>
    chainNextB p (r :: rest) &&
      ((p.nodes ((r :: rest).getLastD 0)).next_sibling == r) &&
      chainPrevB p (r :: rest) &&
      ((p.nodes r).prev_sibling == ((r :: rest).getLastD 0)) &&
      (r :: rest).all (fun x => (p.nodes x).parent == i)

mutual
/-- The pool's `first_child`/sibling-ring links realise the tree `t` at its
root: the root slot is active and in range, its `first_child` heads the
ring of its children (or is 0 for a leaf), the children form a consistent
circular doubly-linked ring whose `parent` fields name the root, and each
child recursively realises its own subtree.  This is the shape
`destroy_idx_recursive` walks; it deliberately does not constrain the
root's own `parent`/`next_sibling`/`prev_sibling` fields. -/
def matchesT (N : Nat) (p : ThingPool T) : DTree → Bool
  | .mk i fs =>
    decide (0 < i) && decide (i < N) && (p.nodes i).is_active &&
      (match fs with
       | .nil => (p.nodes i).first_child == 0
       | .cons t ts =>
         ((p.nodes i).first_child == t.root) &&
           ringBool p i (rootsF (.cons t ts)) && matchesF N p (.cons t ts))
/-- Each subtree of the forest is realised by the pool. -/
def matchesF (N : Nat) (p : ThingPool T) : DForest → Bool
  | .nil => true
  | .cons t ts => matchesT N p t && matchesF N p ts
end

mutual
/-- The state transformer of `destroy_idx_recursive`, re-expressed by
structural recursion over the tree that the pool's links realise (a
fuel-free mirror of `destroyRec`, used to state what `destroy` does and in
which order it frees slots). -/
def specDestroyT (N : Nat) : DTree → ThingPool T → ThingPool T
  | .mk idx fs, p =>
    let p1 := specDestroyF N fs p
    let p2 := if (p1.nodes idx).parent ≠ 0 then
                detachOp N p1 ⟨idx, (p1.nodes idx).generation⟩
              else p1
    let p3 : ThingPool T :=
      { p2 with nodes := upd p2.nodes idx { defaultNode T with generation := (p2.nodes idx).generation } }
    { p3 with next_free := upd p3.next_free idx p3.first_free, first_free := idx }
/-- The state transformer of the child-ring loop, tree by tree. -/
def specDestroyF (N : Nat) : DForest → ThingPool T → ThingPool T
  | .nil, p => p
  | .cons t ts, p => specDestroyF N ts (specDestroyT N t p)
end

/-- Push the listed slot indices onto the free-list head in order, exactly
as the two lines `next_free[idx] = first_free; first_free = idx;` do. -/
def pushAll : List Nat → (Nat → Nat) → Nat → (Nat → Nat) × Nat
  | [], nf, ff => (nf, ff)
  | a :: rest, nf, ff => pushAll rest (upd nf a ff) a

/-- The slot a destroyed node is left as: everything zeroed except the
preserved generation (`louds.cppm` lines 96-99). -/
def clearedNode (T : Type) [Inhabited T] (g : Nat) : Node T :=
  { defaultNode T with generation := g }

/-- Pool states reachable from the freshly constructed pool by the public
mutators `spawn`, `destroy`, `attach_child` and `detach`, together with two
ghost observers: `alloc i` counts how often slot `i` has been allocated,
and `hist` lists every non-nil handle `spawn` has returned. -/
inductive Reach (T : Type) [Inhabited T] (N : Nat) :
    ThingPool T → (Nat → Nat) → List ThingRef → Prop
  | init : Reach T N (initPool T N) (fun _ => 0) []
  | spawn_full (p : ThingPool T) (a : Nat → Nat) (h : List ThingRef) :
      Reach T N p a h → p.first_free = 0 → Reach T N (spawnOp p).1 a h
  | spawn_ok (p : ThingPool T) (a : Nat → Nat) (h : List ThingRef) :
      Reach T N p a h → p.first_free ≠ 0 →
      Reach T N (spawnOp p).1 (upd a p.first_free (a p.first_free + 1))
        ((spawnOp p).2 :: h)
  | destroy (p p' : ThingPool T) (a : Nat → Nat) (h : List ThingRef) (ref : ThingRef) :
      Reach T N p a h → destroyOp N p ref = some p' → Reach T N p' a h
  | attach (p : ThingPool T) (a : Nat → Nat) (h : List ThingRef) (pr cr : ThingRef) :
      Reach T N p a h → Reach T N (attachChild N p pr cr) a h
  | detach (p : ThingPool T) (a : Nat → Nat) (h : List ThingRef) (ref : ThingRef) :
      Reach T N p a h → Reach T N (detachOp N p ref) a h

/-- Index bounds on the free-list head, the free-list entries and all four
hierarchy-link fields of every slot: every stored index is below the
capacity.  This is what keeps the C++ array accesses in bounds; it holds in
every reachable state. -/
def PoolWF (N : Nat) (p : ThingPool T) : Prop :=
  p.first_free < N ∧ (∀ i, p.next_free i < N) ∧
    (∀ i, (p.nodes i).parent < N ∧ (p.nodes i).first_child < N ∧
      (p.nodes i).next_sibling < N ∧ (p.nodes i).prev_sibling < N)

/-- Side condition under which the `detach` performed while destroying the
root of `t` touches no slot inside `t`: either the root is the sole member
of its sibling ring (its `next_sibling` loops back to itself), or both ring
neighbours lie outside the subtree and differ from the parent. -/
def DetachSides (q : ThingPool T) (t : DTree) : Prop :=
  (q.nodes t.root).next_sibling = t.root ∨
    ((q.nodes t.root).next_sibling ∉ nodesT t ∧
     (q.nodes t.root).prev_sibling ∉ nodesT t ∧
     (q.nodes t.root).parent ≠ (q.nodes t.root).next_sibling ∧
     (q.nodes t.root).parent ≠ (q.nodes t.root).prev_sibling)

/-- Exact effect of `destroy_idx_recursive` on a slot-level tree `t`:
every slot of the subtree is left as a cleared node with its generation
preserved; every slot outside the subtree other than the root's parent and
ring neighbours is untouched; the parent/neighbour slots receive exactly
the `detach` splice writes of the root; and the free-list is the old one
with the post-order listing of the subtree pushed on top. -/
def DestroyTOutcome (t : DTree) (q q' : ThingPool T) : Prop :=
  (∀ j ∈ nodesT t, q'.nodes j = clearedNode T ((q.nodes j).generation)) ∧
  (∀ j, j ∉ nodesT t → j ≠ (q.nodes t.root).parent →
     j ≠ (q.nodes t.root).next_sibling → j ≠ (q.nodes t.root).prev_sibling →
     q'.nodes j = q.nodes j) ∧
  ((q.nodes t.root).parent = 0 → ∀ j, j ∉ nodesT t → q'.nodes j = q.nodes j) ∧
  ((q.nodes t.root).parent ≠ 0 → (q.nodes t.root).next_sibling = t.root →
     q'.nodes ((q.nodes t.root).parent)
       = { q.nodes ((q.nodes t.root).parent) with first_child := 0 } ∧
     ∀ j, j ∉ nodesT t → j ≠ (q.nodes t.root).parent → q'.nodes j = q.nodes j) ∧
  ((q.nodes t.root).parent ≠ 0 → (q.nodes t.root).next_sibling ≠ t.root →
     (q'.nodes ((q.nodes t.root).parent)
       = { q.nodes ((q.nodes t.root).parent) with
           first_child :=
             if (q.nodes ((q.nodes t.root).parent)).first_child = t.root
             then (q.nodes t.root).next_sibling
             else (q.nodes ((q.nodes t.root).parent)).first_child }) ∧
     ((q.nodes t.root).prev_sibling = (q.nodes t.root).next_sibling →
        q'.nodes ((q.nodes t.root).next_sibling)
          = { q.nodes ((q.nodes t.root).next_sibling) with
              next_sibling := (q.nodes t.root).next_sibling,
              prev_sibling := (q.nodes t.root).prev_sibling }) ∧
     ((q.nodes t.root).prev_sibling ≠ (q.nodes t.root).next_sibling →
        q'.nodes ((q.nodes t.root).prev_sibling)
          = { q.nodes ((q.nodes t.root).prev_sibling) with
              next_sibling := (q.nodes t.root).next_sibling } ∧
        q'.nodes ((q.nodes t.root).next_sibling)
          = { q.nodes ((q.nodes t.root).next_sibling) with
              prev_sibling := (q.nodes t.root).prev_sibling })) ∧
  (q'.next_free = (pushAll (postT t) q.next_free q.first_free).1 ∧
   q'.first_free = (pushAll (postT t) q.next_free q.first_free).2)

/-- Exact effect of the child-ring loop of `destroy_idx_recursive` on a
forest `fs` whose roots form the child ring of slot `i`: every slot of the
forest is cleared with generation preserved, slot `i` ends with
`first_child = 0` and everything else intact, every other slot outside the
forest is untouched, and the free-list is the old one with the post-order
listing of the forest pushed on top. -/
def DestroyFOutcome (fs : DForest) (i : Nat) (q q' : ThingPool T) : Prop :=
  (∀ j ∈ nodesF fs, q'.nodes j = clearedNode T ((q.nodes j).generation)) ∧
  (∀ j, j ∉ nodesF fs → j ≠ i → q'.nodes j = q.nodes j) ∧
  (q'.nodes i = { q.nodes i with first_child := 0 }) ∧
  (q'.next_free = (pushAll (postF fs) q.next_free q.first_free).1 ∧
   q'.first_free = (pushAll (postF fs) q.next_free q.first_free).2)

/-- What destroying the first tree `t` of the child ring `t :: ts` of slot
`i` leaves behind, in the form needed to continue with `ts`: the remaining
trees still match, their roots still form a ring under `i`, the subtree of
`t` is cleared, slots outside the whole ring (other than `i`) are
untouched, slot `i` only had its `first_child` moved, the non-link fields
of the remaining forest are untouched, and the free-list grew by the
post-order listing of `t`. -/
def StepPack (N : Nat) (t : DTree) (ts : DForest) (i : Nat) (q : ThingPool T) : Prop :=
  matchesF N (specDestroyT N t q) ts = true ∧
  ringBool (specDestroyT N t q) i (rootsF ts) = true ∧
  (∀ j ∈ nodesT t, (specDestroyT N t q).nodes j = clearedNode T ((q.nodes j).generation)) ∧
  (∀ j, j ∉ nodesF (.cons t ts) → j ≠ i → (specDestroyT N t q).nodes j = q.nodes j) ∧
  (∃ w, (specDestroyT N t q).nodes i = { q.nodes i with first_child := w }) ∧
  (ts = .nil → (specDestroyT N t q).nodes i = { q.nodes i with first_child := 0 }) ∧
  (∀ j ∈ nodesF ts,
     ((specDestroyT N t q).nodes j).generation = (q.nodes j).generation ∧
     ((specDestroyT N t q).nodes j).is_active = (q.nodes j).is_active ∧
     ((specDestroyT N t q).nodes j).first_child = (q.nodes j).first_child ∧
     ((specDestroyT N t q).nodes j).data = (q.nodes j).data) ∧
  ((specDestroyT N t q).next_free = (pushAll (postT t) q.next_free q.first_free).1 ∧
   (specDestroyT N t q).first_free = (pushAll (postT t) q.next_free q.first_free).2)

/-- The pool's hierarchy links form a forest over the active slots: every
active slot is the root of some realised, duplicate-free tree.  This is the
well-formedness condition under which C10 asserts termination of
`destroy`. -/
def ForestPool (N : Nat) (q : ThingPool T) : Prop :=
  ∀ i, 0 < i → i < N → (q.nodes i).is_active = true →
    ∃ t : DTree, t.root = i ∧ matchesT N q t = true ∧ (nodesT t).Nodup

/-- Capacity-4 pool holding an active parent in slot 1 whose only child is
slot 2 (a one-element sibling ring); slot 3 heads the free list. -/
def pairPool : ThingPool Nat :=
  { nodes := fun j =>
      if j = 1 then { generation := 1, is_active := true, first_child := 2, data := 0 }
      else if j = 2 then
        { generation := 1, is_active := true, parent := 1,
          next_sibling := 2, prev_sibling := 2, data := 0 }
      else { data := 0 },
    next_free := fun _ => 0,
    first_free := 3 }

/-- The slot-level tree realised by `pairPool`: root 1 with single child 2. -/
def pairTree : DTree := .mk 1 (.cons (.mk 2 .nil) .nil)

/-- Capacity-2 pool in which slot 1 is inactive with generation `k % 2^32`:
the state after `k` rounds of `spawn(); destroy(handle)`. -/
def wrapPool (k : Nat) : ThingPool Unit :=
  { nodes := fun j => if j = 1 then { generation := k % genWidth, data := () } else defaultNode Unit,
    next_free := fun _ => 0,
    first_free := 1 }

/-- Ghost allocation counts after `k` spawn/destroy rounds on `wrapPool`. -/
def wrapAlloc (k : Nat) : Nat → Nat :=
  fun j => if j = 1 then k else 0

/-- The handles issued by `k` spawn/destroy rounds on `wrapPool`, newest
first. -/
def wrapHist : Nat → List ThingRef
  | 0 => []
  | k + 1 => ⟨1, (k + 1) % genWidth⟩ :: wrapHist k

/-- Capacity-8 pool with three spawned handles `(1,1) (2,1) (3,1)` and a
deferred-destroy queue holding `(1,1)` twice and `(3,1)` once. -/
def queuedPoolExample : QueuePool Nat :=
  ⟨(spawnOp (spawnOp (spawnOp (initPool Nat 8)).1).1).1, [⟨1, 1⟩, ⟨1, 1⟩, ⟨3, 1⟩]⟩

/-- Capacity-4 pool after one `spawn` (handle `(1,1)`) followed by
`destroy (1,1)`: slot 1 is inactive but still carries generation 1. -/
def poolOneDestroyed : ThingPool Nat :=
  (destroyOp 4 (spawnOp (initPool Nat 4)).1 ⟨1, 1⟩).getD (spawnOp (initPool Nat 4)).1

/-- Capacity-4 pool after `spawn` twice (handles `(1,1)`, `(2,1)`) and
`destroy (2,1)`: slot 2 is inactive but still carries generation 1. -/
def poolTwoSecondDestroyed : ThingPool Nat :=
  (destroyOp 4 (spawnOp (spawnOp (initPool Nat 4)).1).1 ⟨2, 1⟩).getD
    (spawnOp (spawnOp (initPool Nat 4)).1).1

/-! ## Theorems -/

@[simp] theorem upd_same {α : Type} (f : Nat → α) (i : Nat) (a : α) :
    upd f i a i = a := by simp [upd]

@[simp] theorem upd_other {α : Type} (f : Nat → α) (i j : Nat) (a : α)
    (h : j ≠ i) : upd f i a j = f j := by simp [upd, h]

@[simp] theorem setParentF_first_free (p : ThingPool T) (i v : Nat) :
    (setParentF p i v).first_free = p.first_free := rfl

@[simp] theorem setParentF_next_free (p : ThingPool T) (i v : Nat) :
    (setParentF p i v).next_free = p.next_free := rfl

@[simp] theorem setFirstChildF_first_free (p : ThingPool T) (i v : Nat) :
    (setFirstChildF p i v).first_free = p.first_free := rfl

@[simp] theorem setFirstChildF_next_free (p : ThingPool T) (i v : Nat) :
    (setFirstChildF p i v).next_free = p.next_free := rfl

@[simp] theorem setNextF_first_free (p : ThingPool T) (i v : Nat) :
    (setNextF p i v).first_free = p.first_free := rfl

@[simp] theorem setNextF_next_free (p : ThingPool T) (i v : Nat) :
    (setNextF p i v).next_free = p.next_free := rfl

@[simp] theorem setPrevF_first_free (p : ThingPool T) (i v : Nat) :
    (setPrevF p i v).first_free = p.first_free := rfl

@[simp] theorem setPrevF_next_free (p : ThingPool T) (i v : Nat) :
    (setPrevF p i v).next_free = p.next_free := rfl

theorem setParentF_nodes_same (p : ThingPool T) (i v : Nat) :
    (setParentF p i v).nodes i = { p.nodes i with parent := v } := by
  simp [setParentF]

theorem setParentF_nodes_other (p : ThingPool T) (i v j : Nat) (h : j ≠ i) :
    (setParentF p i v).nodes j = p.nodes j := by
  simp [setParentF, upd, h]

theorem setFirstChildF_nodes_same (p : ThingPool T) (i v : Nat) :
    (setFirstChildF p i v).nodes i = { p.nodes i with first_child := v } := by
  simp [setFirstChildF]

theorem setFirstChildF_nodes_other (p : ThingPool T) (i v j : Nat) (h : j ≠ i) :
    (setFirstChildF p i v).nodes j = p.nodes j := by
  simp [setFirstChildF, upd, h]

theorem setNextF_nodes_same (p : ThingPool T) (i v : Nat) :
    (setNextF p i v).nodes i = { p.nodes i with next_sibling := v } := by
  simp [setNextF]

theorem setNextF_nodes_other (p : ThingPool T) (i v j : Nat) (h : j ≠ i) :
    (setNextF p i v).nodes j = p.nodes j := by
  simp [setNextF, upd, h]

theorem setPrevF_nodes_same (p : ThingPool T) (i v : Nat) :
    (setPrevF p i v).nodes i = { p.nodes i with prev_sibling := v } := by
  simp [setPrevF]

theorem setPrevF_nodes_other (p : ThingPool T) (i v j : Nat) (h : j ≠ i) :
    (setPrevF p i v).nodes j = p.nodes j := by
  simp [setPrevF, upd, h]

theorem linkOnly_refl (p : ThingPool T) : LinkOnly p p :=
  fun _ => ⟨rfl, rfl, rfl⟩

theorem linkOnly_trans {p q r : ThingPool T} (h1 : LinkOnly p q) (h2 : LinkOnly q r) :
    LinkOnly p r := by
  intro j
  obtain ⟨a1, b1, c1⟩ := h1 j
  obtain ⟨a2, b2, c2⟩ := h2 j
  exact ⟨a2.trans a1, b2.trans b1, c2.trans c1⟩

theorem linkOnly_setParentF {p q : ThingPool T} (h : LinkOnly p q) (i v : Nat) :
    LinkOnly p (setParentF q i v) := by
  refine linkOnly_trans h (fun j => ?_)
  by_cases hj : j = i
  · subst hj; simp [setParentF_nodes_same]
  · simp [setParentF_nodes_other q i v j hj]

theorem linkOnly_setFirstChildF {p q : ThingPool T} (h : LinkOnly p q) (i v : Nat) :
    LinkOnly p (setFirstChildF q i v) := by
  refine linkOnly_trans h (fun j => ?_)
  by_cases hj : j = i
  · subst hj; simp [setFirstChildF_nodes_same]
  · simp [setFirstChildF_nodes_other q i v j hj]

theorem linkOnly_setNextF {p q : ThingPool T} (h : LinkOnly p q) (i v : Nat) :
    LinkOnly p (setNextF q i v) := by
  refine linkOnly_trans h (fun j => ?_)
  by_cases hj : j = i
  · subst hj; simp [setNextF_nodes_same]
  · simp [setNextF_nodes_other q i v j hj]

theorem linkOnly_setPrevF {p q : ThingPool T} (h : LinkOnly p q) (i v : Nat) :
    LinkOnly p (setPrevF q i v) := by
  refine linkOnly_trans h (fun j => ?_)
  by_cases hj : j = i
  · subst hj; simp [setPrevF_nodes_same]
  · simp [setPrevF_nodes_other q i v j hj]

/-- `detach` rewrites hierarchy links only: it can change no slot's
generation, activity or payload. -/
theorem linkOnly_detachOp (N : Nat) (p : ThingPool T) (ref : ThingRef) :
    LinkOnly p (detachOp N p ref) := by
  simp only [detachOp]
  split
  · exact linkOnly_refl p
  · split
    · exact linkOnly_refl p
    · apply linkOnly_setPrevF
      apply linkOnly_setNextF
      apply linkOnly_setParentF
      split
      · exact linkOnly_setFirstChildF (linkOnly_refl p) _ _
      · split
        · apply linkOnly_setFirstChildF
          exact linkOnly_setPrevF (linkOnly_setNextF (linkOnly_refl p) _ _) _ _
        · exact linkOnly_setPrevF (linkOnly_setNextF (linkOnly_refl p) _ _) _ _

/-- `detach` leaves the free-list alone. -/
theorem detachOp_free_eq (N : Nat) (p : ThingPool T) (ref : ThingRef) :
    (detachOp N p ref).next_free = p.next_free ∧
    (detachOp N p ref).first_free = p.first_free := by
  simp only [detachOp]
  split
  · exact ⟨rfl, rfl⟩
  · split
    · exact ⟨rfl, rfl⟩
    · split
      · exact ⟨rfl, rfl⟩
      · split
        · exact ⟨rfl, rfl⟩
        · exact ⟨rfl, rfl⟩

/-- `attach_child` rewrites hierarchy links only. -/
theorem linkOnly_attachChild (N : Nat) (p : ThingPool T) (pr cr : ThingRef) :
    LinkOnly p (attachChild N p pr cr) := by
  simp only [attachChild]
  split
  · exact linkOnly_refl p
  · split
    · split
      · exact linkOnly_setPrevF (linkOnly_setNextF (linkOnly_setFirstChildF
          (linkOnly_setParentF (linkOnly_detachOp N p cr) _ _) _ _) _ _) _ _
      · exact linkOnly_setPrevF (linkOnly_setNextF (linkOnly_setPrevF (linkOnly_setNextF
          (linkOnly_setParentF (linkOnly_detachOp N p cr) _ _) _ _) _ _) _ _) _ _
    · split
      · exact linkOnly_setPrevF (linkOnly_setNextF (linkOnly_setFirstChildF
          (linkOnly_setParentF (linkOnly_refl p) _ _) _ _) _ _) _ _
      · exact linkOnly_setPrevF (linkOnly_setNextF (linkOnly_setPrevF (linkOnly_setNextF
          (linkOnly_setParentF (linkOnly_refl p) _ _) _ _) _ _) _ _) _ _

theorem genActMono_refl (p : ThingPool T) : GenActMono p p :=
  fun _ => ⟨rfl, fun h => h⟩

theorem genActMono_trans {p q r : ThingPool T} (h1 : GenActMono p q) (h2 : GenActMono q r) :
    GenActMono p r := by
  intro j
  obtain ⟨a1, b1⟩ := h1 j
  obtain ⟨a2, b2⟩ := h2 j
  exact ⟨a2.trans a1, fun h => b1 (b2 h)⟩

theorem genActMono_of_linkOnly {p q : ThingPool T} (h : LinkOnly p q) : GenActMono p q :=
  fun j => ⟨(h j).1, fun ha => ((h j).2.1).symm.trans ha⟩

/-- `destroy_idx_recursive` (and its child loop) preserves every slot's
generation and never activates a slot. -/
theorem destroy_genActMono (N : Nat) : ∀ fuel : Nat,
    (∀ (p : ThingPool T) (idx : Nat) (p' : ThingPool T),
       destroyRec N fuel p idx = some p' → GenActMono p p') ∧
    (∀ (p : ThingPool T) (c f : Nat) (p' : ThingPool T),
       destroyLoop N fuel p c f = some p' → GenActMono p p') := by
  intro fuel
  induction fuel with
  | zero =>
    constructor
    · intro p idx p' h; simp [destroyRec] at h
    · intro p c f p' h; simp [destroyLoop] at h
  | succ n ih =>
    constructor
    · intro p idx p' h
      rw [destroyRec] at h
      split at h
      · obtain rfl : p = p' := by simpa using h
        exact genActMono_refl p
      · rcases hl : (if (p.nodes idx).first_child ≠ 0 then
            destroyLoop N n p ((p.nodes idx).first_child) ((p.nodes idx).first_child)
          else some p) with _ | p1
        · rw [hl] at h; simp at h
        · rw [hl] at h
          simp only [Option.some.injEq] at h
          have hm1 : GenActMono p p1 := by
            rcases hfc : (decide ((p.nodes idx).first_child ≠ 0)) with _ | _
            · rw [if_neg (by simpa using hfc)] at hl
              obtain rfl : p = p1 := by simpa using hl
              exact genActMono_refl p
            · rw [if_pos (by simpa using hfc)] at hl
              exact ih.2 p _ _ p1 hl
          set p2 := if (p1.nodes idx).parent ≠ 0 then
              detachOp N p1 ⟨idx, (p1.nodes idx).generation⟩ else p1 with hp2
          have hm2 : GenActMono p p2 := by
            rw [hp2]; split
            · exact genActMono_trans hm1 (genActMono_of_linkOnly (linkOnly_detachOp N p1 _))
            · exact hm1
          refine genActMono_trans hm2 (fun j => ?_)
          rw [← h]
          by_cases hj : j = idx
          · subst hj
            simp [upd, clearedNode, defaultNode]
          · simp [upd, hj]
    · intro p c f p' h
      rw [destroyLoop] at h
      rcases hr : destroyRec N n p c with _ | p1
      · rw [hr] at h; simp at h
      · rw [hr] at h
        replace h : (if (p.nodes c).next_sibling ≠ 0 ∧ (p.nodes c).next_sibling ≠ f then
            destroyLoop N n p1 ((p.nodes c).next_sibling) f else some p1) = some p' := h
        have hm1 : GenActMono p p1 := ih.1 p c p1 hr
        split at h
        · exact genActMono_trans hm1 (ih.2 p1 _ f p' h)
        · obtain rfl : p1 = p' := by simpa using h
          exact hm1

theorem isValid_eq_true_iff (N : Nat) (p : ThingPool T) (r : ThingRef) :
    isValid N p r = true ↔
      0 < r.index ∧ r.index < N ∧ (p.nodes r.index).is_active = true ∧
        (p.nodes r.index).generation = r.generation := by
  simp [isValid, and_assoc]

/-- The recursion on an active slot ends by clearing that slot. -/
theorem destroyRec_deactivates (N fuel : Nat) (p : ThingPool T) (idx : Nat)
    (p' : ThingPool T) (h : destroyRec N fuel p idx = some p')
    (ha : (p.nodes idx).is_active = true) :
    (p'.nodes idx).is_active = false := by
  cases fuel with
  | zero => simp [destroyRec] at h
  | succ n =>
    rw [destroyRec] at h
    rw [if_neg (by simp [ha])] at h
    rcases hl : (if (p.nodes idx).first_child ≠ 0 then
        destroyLoop N n p ((p.nodes idx).first_child) ((p.nodes idx).first_child)
      else some p) with _ | p1
    · rw [hl] at h; simp at h
    · rw [hl] at h
      simp only [Option.some.injEq] at h
      rw [← h]
      simp [upd, defaultNode]

/-- `destroy` preserves every slot's generation and never activates. -/
theorem destroyOp_genActMono {N : Nat} {p p' : ThingPool T} {ref : ThingRef}
    (h : destroyOp N p ref = some p') : GenActMono p p' := by
  rw [destroyOp] at h
  split at h
  · obtain rfl : p = p' := by simpa using h
    exact genActMono_refl p
  · exact (destroy_genActMono N (destroyFuel N)).1 p ref.index p' h

/-- Destroying any handle cannot make an invalid handle valid. -/
theorem destroyOp_preserves_invalid (N : Nat) (p p' : ThingPool T) (ref x : ThingRef)
    (h : destroyOp N p ref = some p') (hinv : isValid N p x = false) :
    isValid N p' x = false := by
  have hmono : GenActMono p p' := destroyOp_genActMono h
  cases hv : isValid N p' x with
  | false => rfl
  | true =>
    exfalso
    obtain ⟨h1, h2, h3, h4⟩ := (isValid_eq_true_iff N p' x).1 hv
    obtain ⟨hg, hb⟩ := hmono x.index
    have : isValid N p x = true :=
      (isValid_eq_true_iff N p x).2 ⟨h1, h2, hb h3, hg ▸ h4⟩
    simp [this] at hinv

/-- Destroying a valid handle makes that handle invalid. -/
theorem destroyOp_invalidates (N : Nat) (p p' : ThingPool T) (ref : ThingRef)
    (h : destroyOp N p ref = some p') (hval : isValid N p ref = true) :
    isValid N p' ref = false := by
  rw [destroyOp, if_neg (by simp [hval])] at h
  obtain ⟨_, _, h3, _⟩ := (isValid_eq_true_iff N p ref).1 hval
  have := destroyRec_deactivates N (destroyFuel N) p ref.index p' h h3
  simp [isValid, this]

/-- C1: `load_from_file` is transactional: whenever it returns `false`
(unreadable file, short read, or any failed header check on magic,
`max_things`, `node_size` or the range of `first_free`), the pool state —
and with it the validity of every handle, every payload, `first_free` and
the free-list — is exactly what it was before the call. -/
theorem load_from_file_transactional (N nodeSize : Nat) (p : ThingPool T)
    (disk : Option (SaveHeader × (Nat → Nat) × (Nat → Node T)))
    (hfail : (loadFromFile N nodeSize p disk).1 = false) :
    (loadFromFile N nodeSize p disk).2 = p := by
  rcases disk with _ | ⟨h, nf, nd⟩
  · rfl
  · by_cases h1 : h.magic0 ≠ 76 ∨ h.magic1 ≠ 79 ∨ h.magic2 ≠ 71 ∨ h.magic3 ≠ 67
    · simp [loadFromFile, h1]
    · by_cases h2 : h.max_things ≠ N ∨ h.node_size ≠ nodeSize
      · simp [loadFromFile, h1, h2]
      · by_cases h3 : N ≤ h.first_free
        · simp [loadFromFile, h1, h2, h3]
        · simp [loadFromFile, h1, h2, h3] at hfail

/-- Witness for C1 at a concrete input: loading from an unreadable file
fails and leaves the concrete pool untouched. -/
theorem load_from_file_transactional_witness :
    (loadFromFile 4 0 (initPool Nat 4) none).1 = false ∧
    (loadFromFile 4 0 (initPool Nat 4) none).2 = initPool Nat 4 :=
  ⟨rfl, load_from_file_transactional 4 0 (initPool Nat 4) none rfl⟩

/-- C9: `load_from_file` never inspects the header's `version` field: a
completely read snapshot whose magic is `LOGC`, whose `max_things` equals
the capacity, whose `node_size` matches and whose `first_free` is below the
capacity loads successfully for EVERY value of the 4-byte version field. -/
theorem load_from_file_ignores_version (N nodeSize v ff : Nat) (p : ThingPool T)
    (nf : Nat → Nat) (nd : Nat → Node T) (hff : ff < N) :
    loadFromFile N nodeSize p
      (some ({ magic0 := 76, magic1 := 79, magic2 := 71, magic3 := 67,
               version := v, max_things := N, node_size := nodeSize,
               first_free := ff }, nf, nd))
      = (true, { nodes := nd, next_free := nf, first_free := ff }) := by
  simp [loadFromFile, Nat.not_le_of_lt hff]

/-- Witness for C9: a concrete snapshot with version 12345 (the on-disk
format documents version 1) still loads. -/
theorem load_from_file_ignores_version_witness :
    (0 : Nat) < 4 ∧
    loadFromFile 4 0 (initPool Nat 4)
      (some ({ magic0 := 76, magic1 := 79, magic2 := 71, magic3 := 67,
               version := 12345, max_things := 4, node_size := 0,
               first_free := 0 }, fun _ => 0, fun _ => defaultNode Nat))
      = (true, { nodes := fun _ => defaultNode Nat, next_free := fun _ => 0,
                 first_free := 0 }) :=
  ⟨by decide,
   load_from_file_ignores_version 4 0 12345 0 (initPool Nat 4)
     (fun _ => 0) (fun _ => defaultNode Nat) (by decide)⟩

/-- C6: round-trip: if `save_to_file` of pool `p` is read back completely
into an identically-parameterised pool `q` and the load succeeds, then
`is_valid` agrees with `p` on every handle and every active slot's payload
is bit-equal to the corresponding payload of `p`. -/
theorem save_load_round_trip (N nodeSize : Nat) (p q : ThingPool T)
    (hsucc : (loadFromFile N nodeSize q (some (saveToFile N nodeSize p))).1 = true) :
    (∀ ref : ThingRef,
        isValid N (loadFromFile N nodeSize q (some (saveToFile N nodeSize p))).2 ref
          = isValid N p ref) ∧
    (∀ i : Nat,
        ((loadFromFile N nodeSize q (some (saveToFile N nodeSize p))).2.nodes i).is_active = true →
        ((loadFromFile N nodeSize q (some (saveToFile N nodeSize p))).2.nodes i).data
          = (p.nodes i).data) := by
  have hlt : p.first_free < N := by
    by_contra hge
    simp [loadFromFile, saveToFile, Nat.le_of_not_lt hge] at hsucc
  constructor
  · intro ref
    simp [loadFromFile, saveToFile, Nat.not_le_of_lt hlt, isValid]
  · intro i _
    simp [loadFromFile, saveToFile, Nat.not_le_of_lt hlt]

/-- Witness for C6: a concrete capacity-4 pool with one live handle
round-trips; its handle stays valid and its payload survives. -/
theorem save_load_round_trip_witness :
    (loadFromFile 4 0 (initPool Nat 4)
        (some (saveToFile 4 0 (spawnOp (initPool Nat 4)).1))).1 = true ∧
    ((∀ ref : ThingRef,
        isValid 4 (loadFromFile 4 0 (initPool Nat 4)
            (some (saveToFile 4 0 (spawnOp (initPool Nat 4)).1))).2 ref
          = isValid 4 (spawnOp (initPool Nat 4)).1 ref) ∧
     (∀ i : Nat,
        ((loadFromFile 4 0 (initPool Nat 4)
            (some (saveToFile 4 0 (spawnOp (initPool Nat 4)).1))).2.nodes i).is_active = true →
        ((loadFromFile 4 0 (initPool Nat 4)
            (some (saveToFile 4 0 (spawnOp (initPool Nat 4)).1))).2.nodes i).data
          = ((spawnOp (initPool Nat 4)).1.nodes i).data)) :=
  ⟨rfl, save_load_round_trip 4 0 (spawnOp (initPool Nat 4)).1 (initPool Nat 4) rfl⟩

theorem add_one_mod_width (k : Nat) :
    (k % genWidth + 1) % genWidth = (k + 1) % genWidth := by
  conv_rhs => rw [Nat.add_mod]
  norm_num [genWidth]

theorem poolEq (p q : ThingPool T) (h1 : p.nodes = q.nodes)
    (h2 : p.next_free = q.next_free) (h3 : p.first_free = q.first_free) :
    p = q := by
  cases p; cases q; simp_all

/-- What a non-zero `get_node` resolution tells us about the handle. -/
theorem getNodeIdx_spec (N : Nat) (p : ThingPool T) (ref : ThingRef) :
    getNodeIdx N p ref = 0 ∨
    (getNodeIdx N p ref = ref.index ∧ 0 < ref.index ∧ ref.index < N ∧
      (p.nodes ref.index).generation = ref.generation) := by
  rw [getNodeIdx]
  split
  · exact Or.inl rfl
  · next hc =>
    push_neg at hc
    exact Or.inr ⟨rfl, Nat.pos_of_ne_zero hc.1, hc.2.1, hc.2.2⟩

theorem wf_setParentF {N : Nat} {p : ThingPool T} (hwf : PoolWF N p) (i : Nat)
    {v : Nat} (hv : v < N) : PoolWF N (setParentF p i v) := by
  refine ⟨hwf.1, hwf.2.1, fun j => ?_⟩
  by_cases hj : j = i
  · subst hj
    rw [setParentF_nodes_same]
    exact ⟨hv, (hwf.2.2 j).2.1, (hwf.2.2 j).2.2.1, (hwf.2.2 j).2.2.2⟩
  · rw [setParentF_nodes_other p i v j hj]
    exact hwf.2.2 j

theorem wf_setFirstChildF {N : Nat} {p : ThingPool T} (hwf : PoolWF N p) (i : Nat)
    {v : Nat} (hv : v < N) : PoolWF N (setFirstChildF p i v) := by
  refine ⟨hwf.1, hwf.2.1, fun j => ?_⟩
  by_cases hj : j = i
  · subst hj
    rw [setFirstChildF_nodes_same]
    exact ⟨(hwf.2.2 j).1, hv, (hwf.2.2 j).2.2.1, (hwf.2.2 j).2.2.2⟩
  · rw [setFirstChildF_nodes_other p i v j hj]
    exact hwf.2.2 j

theorem wf_setNextF {N : Nat} {p : ThingPool T} (hwf : PoolWF N p) (i : Nat)
    {v : Nat} (hv : v < N) : PoolWF N (setNextF p i v) := by
  refine ⟨hwf.1, hwf.2.1, fun j => ?_⟩
  by_cases hj : j = i
  · subst hj
    rw [setNextF_nodes_same]
    exact ⟨(hwf.2.2 j).1, (hwf.2.2 j).2.1, hv, (hwf.2.2 j).2.2.2⟩
  · rw [setNextF_nodes_other p i v j hj]
    exact hwf.2.2 j

theorem wf_setPrevF {N : Nat} {p : ThingPool T} (hwf : PoolWF N p) (i : Nat)
    {v : Nat} (hv : v < N) : PoolWF N (setPrevF p i v) := by
  refine ⟨hwf.1, hwf.2.1, fun j => ?_⟩
  by_cases hj : j = i
  · subst hj
    rw [setPrevF_nodes_same]
    exact ⟨(hwf.2.2 j).1, (hwf.2.2 j).2.1, (hwf.2.2 j).2.2.1, hv⟩
  · rw [setPrevF_nodes_other p i v j hj]
    exact hwf.2.2 j

theorem wf_initPool (N : Nat) (hN : 2 ≤ N) : PoolWF N (initPool T N) := by
  refine ⟨?_, fun i => ?_, fun i => ?_⟩
  · show (1 : Nat) < N
    omega
  · simp only [initPool]
    split
    · next hcond => omega
    · omega
  · simp [initPool, defaultNode]
    omega

theorem wf_spawnOp {N : Nat} {p : ThingPool T} (hwf : PoolWF N p) :
    PoolWF N (spawnOp p).1 := by
  rw [spawnOp]
  split
  · exact hwf
  · refine ⟨hwf.2.1 p.first_free, hwf.2.1, fun j => ?_⟩
    have h1 : p.first_free < N := hwf.1
    by_cases hj : j = p.first_free
    · subst hj
      simp [defaultNode]
      omega
    · simpa [upd, hj] using hwf.2.2 j

theorem wf_detachOp {N : Nat} {p : ThingPool T} (hwf : PoolWF N p) (ref : ThingRef) :
    PoolWF N (detachOp N p ref) := by
  have hN : 0 < N := Nat.lt_of_le_of_lt (Nat.zero_le _) hwf.1
  simp only [detachOp]
  split
  · exact hwf
  · split
    · exact hwf
    · next hi0 _ =>
      rcases getNodeIdx_spec N p ref with hz | ⟨hix, _, _, _⟩
      · exact absurd hz hi0
      have hpa : (p.nodes (getNodeIdx N p ref)).parent < N :=
        (hwf.2.2 _).1
      have hq1 : PoolWF N (setNextF p ((p.nodes (getNodeIdx N p ref)).prev_sibling)
          ((p.nodes (getNodeIdx N p ref)).next_sibling)) :=
        wf_setNextF hwf _ ((hwf.2.2 _).2.2.1)
      have hq2 : PoolWF N (setPrevF
          (setNextF p ((p.nodes (getNodeIdx N p ref)).prev_sibling)
            ((p.nodes (getNodeIdx N p ref)).next_sibling))
          ((setNextF p ((p.nodes (getNodeIdx N p ref)).prev_sibling)
            ((p.nodes (getNodeIdx N p ref)).next_sibling)).nodes (getNodeIdx N p ref)).next_sibling
          ((setNextF p ((p.nodes (getNodeIdx N p ref)).prev_sibling)
            ((p.nodes (getNodeIdx N p ref)).next_sibling)).nodes (getNodeIdx N p ref)).prev_sibling) :=
        wf_setPrevF hq1 _ ((hq1.2.2 _).2.2.2)
      have hwf1 : PoolWF N (if (p.nodes (getNodeIdx N p ref)).next_sibling = ref.index then
          setFirstChildF p ((p.nodes (getNodeIdx N p ref)).parent) 0
        else
          if ((setPrevF
              (setNextF p ((p.nodes (getNodeIdx N p ref)).prev_sibling)
                ((p.nodes (getNodeIdx N p ref)).next_sibling))
              ((setNextF p ((p.nodes (getNodeIdx N p ref)).prev_sibling)
                ((p.nodes (getNodeIdx N p ref)).next_sibling)).nodes (getNodeIdx N p ref)).next_sibling
              ((setNextF p ((p.nodes (getNodeIdx N p ref)).prev_sibling)
                ((p.nodes (getNodeIdx N p ref)).next_sibling)).nodes (getNodeIdx N p ref)).prev_sibling).nodes
                ((p.nodes (getNodeIdx N p ref)).parent)).first_child = ref.index then
            setFirstChildF (setPrevF
              (setNextF p ((p.nodes (getNodeIdx N p ref)).prev_sibling)
                ((p.nodes (getNodeIdx N p ref)).next_sibling))
              ((setNextF p ((p.nodes (getNodeIdx N p ref)).prev_sibling)
                ((p.nodes (getNodeIdx N p ref)).next_sibling)).nodes (getNodeIdx N p ref)).next_sibling
              ((setNextF p ((p.nodes (getNodeIdx N p ref)).prev_sibling)
                ((p.nodes (getNodeIdx N p ref)).next_sibling)).nodes (getNodeIdx N p ref)).prev_sibling)
              ((p.nodes (getNodeIdx N p ref)).parent)
              (((setPrevF
              (setNextF p ((p.nodes (getNodeIdx N p ref)).prev_sibling)
                ((p.nodes (getNodeIdx N p ref)).next_sibling))
              ((setNextF p ((p.nodes (getNodeIdx N p ref)).prev_sibling)
                ((p.nodes (getNodeIdx N p ref)).next_sibling)).nodes (getNodeIdx N p ref)).next_sibling
              ((setNextF p ((p.nodes (getNodeIdx N p ref)).prev_sibling)
                ((p.nodes (getNodeIdx N p ref)).next_sibling)).nodes (getNodeIdx N p ref)).prev_sibling).nodes
                (getNodeIdx N p ref)).next_sibling)
          else (setPrevF
              (setNextF p ((p.nodes (getNodeIdx N p ref)).prev_sibling)
                ((p.nodes (getNodeIdx N p ref)).next_sibling))
              ((setNextF p ((p.nodes (getNodeIdx N p ref)).prev_sibling)
                ((p.nodes (getNodeIdx N p ref)).next_sibling)).nodes (getNodeIdx N p ref)).next_sibling
              ((setNextF p ((p.nodes (getNodeIdx N p ref)).prev_sibling)
                ((p.nodes (getNodeIdx N p ref)).next_sibling)).nodes (getNodeIdx N p ref)).prev_sibling)) := by
        split
        · exact wf_setFirstChildF hwf _ hN
        · split
          · exact wf_setFirstChildF hq2 _ ((hq2.2.2 _).2.2.1)
          · exact hq2
      exact wf_setPrevF (wf_setNextF (wf_setParentF hwf1 _ hN) _ hN) _ hN

theorem wf_attachChild {N : Nat} {p : ThingPool T} (hwf : PoolWF N p)
    (pr cr : ThingRef) : PoolWF N (attachChild N p pr cr) := by
  simp only [attachChild]
  split
  · exact hwf
  · next hnz =>
    push_neg at hnz
    have hprlt : pr.index < N := by
      rcases getNodeIdx_spec N p pr with hz | ⟨_, _, hlt, _⟩
      · exact absurd hz hnz.1
      · exact hlt
    have hcrlt : cr.index < N := by
      rcases getNodeIdx_spec N p cr with hz | ⟨_, _, hlt, _⟩
      · exact absurd hz hnz.2
      · exact hlt
    split
    · have hwf2 : PoolWF N (setParentF (detachOp N p cr) (getNodeIdx N p cr) pr.index) :=
        wf_setParentF (wf_detachOp hwf cr) _ hprlt
      split
      · exact wf_setPrevF (wf_setNextF (wf_setFirstChildF hwf2 _ hcrlt) _ hcrlt) _ hcrlt
      · exact wf_setPrevF (wf_setNextF (wf_setPrevF (wf_setNextF hwf2 _ hcrlt) _
          ((hwf2.2.2 _).2.2.2)) _ ((hwf2.2.2 _).2.1)) _ hcrlt
    · have hwf2 : PoolWF N (setParentF p (getNodeIdx N p cr) pr.index) :=
        wf_setParentF hwf _ hprlt
      split
      · exact wf_setPrevF (wf_setNextF (wf_setFirstChildF hwf2 _ hcrlt) _ hcrlt) _ hcrlt
      · exact wf_setPrevF (wf_setNextF (wf_setPrevF (wf_setNextF hwf2 _ hcrlt) _
          ((hwf2.2.2 _).2.2.2)) _ ((hwf2.2.2 _).2.1)) _ hcrlt

/-- `destroy_idx_recursive` keeps every stored index below the capacity. -/
theorem wf_destroy (N : Nat) : ∀ fuel : Nat,
    (∀ (p : ThingPool T) (idx : Nat) (p' : ThingPool T),
       destroyRec N fuel p idx = some p' → PoolWF N p → idx < N → PoolWF N p') ∧
    (∀ (p : ThingPool T) (c f : Nat) (p' : ThingPool T),
       destroyLoop N fuel p c f = some p' → PoolWF N p → c < N → PoolWF N p') := by
  intro fuel
  induction fuel with
  | zero =>
    constructor
    · intro p idx p' h; simp [destroyRec] at h
    · intro p c f p' h; simp [destroyLoop] at h
  | succ n ih =>
    constructor
    · intro p idx p' h hwf hidx
      rw [destroyRec] at h
      split at h
      · obtain rfl : p = p' := by simpa using h
        exact hwf
      · rcases hl : (if (p.nodes idx).first_child ≠ 0 then
            destroyLoop N n p ((p.nodes idx).first_child) ((p.nodes idx).first_child)
          else some p) with _ | p1
        · rw [hl] at h; simp at h
        · rw [hl] at h
          simp only [Option.some.injEq] at h
          have hwf1 : PoolWF N p1 := by
            rcases hfc : (decide ((p.nodes idx).first_child ≠ 0)) with _ | _
            · rw [if_neg (by simpa using hfc)] at hl
              obtain rfl : p = p1 := by simpa using hl
              exact hwf
            · rw [if_pos (by simpa using hfc)] at hl
              exact ih.2 p _ _ p1 hl hwf ((hwf.2.2 idx).2.1)
          have hwf2 : PoolWF N (if (p1.nodes idx).parent ≠ 0 then
              detachOp N p1 ⟨idx, (p1.nodes idx).generation⟩ else p1) := by
            split
            · exact wf_detachOp hwf1 _
            · exact hwf1
          rw [← h]
          set p2 := if (p1.nodes idx).parent ≠ 0 then
              detachOp N p1 ⟨idx, (p1.nodes idx).generation⟩ else p1 with hp2
          refine ⟨hidx, fun i => ?_, fun j => ?_⟩
          · by_cases hji : i = idx
            · subst hji; simpa using hwf2.1
            · simpa [upd, hji] using hwf2.2.1 i
          · by_cases hji : j = idx
            · subst hji
              simp [defaultNode]
              omega
            · simpa [upd, hji] using hwf2.2.2 j
    · intro p c f p' h hwf hc
      rw [destroyLoop] at h
      rcases hr : destroyRec N n p c with _ | p1
      · rw [hr] at h; simp at h
      · rw [hr] at h
        replace h : (if (p.nodes c).next_sibling ≠ 0 ∧ (p.nodes c).next_sibling ≠ f then
            destroyLoop N n p1 ((p.nodes c).next_sibling) f else some p1) = some p' := h
        have hwf1 : PoolWF N p1 := ih.1 p c p1 hr hwf hc
        split at h
        · exact ih.2 p1 _ f p' h hwf1 ((hwf.2.2 c).2.2.1)
        · obtain rfl : p1 = p' := by simpa using h
          exact hwf1

theorem wf_destroyOp {N : Nat} {p p' : ThingPool T} (hwf : PoolWF N p)
    (ref : ThingRef) (h : destroyOp N p ref = some p') : PoolWF N p' := by
  rw [destroyOp] at h
  split at h
  · obtain rfl : p = p' := by simpa using h
    exact hwf
  · next hval =>
    have : isValid N p ref = true := by
      cases hv : isValid N p ref
      · exact absurd hv hval
      · rfl
    exact (wf_destroy N (destroyFuel N)).1 p ref.index p' h hwf
      ((isValid_eq_true_iff N p ref).1 this).2.1

/-- The invariant carried by every reachable state: all stored indices are
in range, slot `i`'s generation is its ghost allocation count modulo
`2^32`, and every issued handle's generation is `m % 2^32` for the value
`m` the slot's allocation count had when it was issued. -/
theorem reach_invariant (N : Nat) (hN : 2 ≤ N) {p : ThingPool T} {a : Nat → Nat}
    {h : List ThingRef} (hr : Reach T N p a h) :
    PoolWF N p ∧ (∀ i, (p.nodes i).generation = a i % genWidth) ∧
    (∀ r ∈ h, 0 < r.index ∧ r.index < N ∧
       ∃ m, 1 ≤ m ∧ m ≤ a r.index ∧ r.generation = m % genWidth) := by
  induction hr with
  | init =>
    refine ⟨wf_initPool N hN, fun i => ?_, by simp⟩
    simp [initPool, defaultNode]
  | spawn_full p a h hr hff ih =>
    have hfix : (spawnOp p).1 = p := by rw [spawnOp, if_pos hff]
    rw [hfix]
    exact ih
  | spawn_ok p a h hr hff ih =>
    obtain ⟨hwf, hgen, hhist⟩ := ih
    refine ⟨wf_spawnOp hwf, fun i => ?_, fun r hrmem => ?_⟩
    · rw [spawnOp, if_neg hff]
      by_cases hi : i = p.first_free
      · subst hi
        simp only [upd_same]
        show ((p.nodes p.first_free).generation + 1) % genWidth
          = (a p.first_free + 1) % genWidth
        rw [hgen]
        exact add_one_mod_width _
      · simpa [upd, hi] using hgen i
    · rw [spawnOp, if_neg hff] at hrmem
      rcases List.mem_cons.1 hrmem with rfl | hmem
      · refine ⟨Nat.pos_of_ne_zero hff, hwf.1, a p.first_free + 1, by omega,
          by simp [upd], ?_⟩
        show ((p.nodes p.first_free).generation + 1) % genWidth
          = (a p.first_free + 1) % genWidth
        rw [hgen]
        exact add_one_mod_width _
      · obtain ⟨h1, h2, m, hm1, hm2, hm3⟩ := hhist r hmem
        refine ⟨h1, h2, m, hm1, ?_, hm3⟩
        by_cases hi : r.index = p.first_free
        · rw [hi]
          simp only [upd_same]
          rw [hi] at hm2
          omega
        · simpa [upd, hi] using hm2
  | destroy p p' a h ref hr hd ih =>
    obtain ⟨hwf, hgen, hhist⟩ := ih
    have hmono : GenActMono p p' := destroyOp_genActMono hd
    exact ⟨wf_destroyOp hwf ref hd, fun i => ((hmono i).1).trans (hgen i), hhist⟩
  | attach p a h pr cr hr ih =>
    obtain ⟨hwf, hgen, hhist⟩ := ih
    have hl := linkOnly_attachChild N p pr cr
    exact ⟨wf_attachChild hwf pr cr, fun i => ((hl i).1).trans (hgen i), hhist⟩
  | detach p a h ref hr ih =>
    obtain ⟨hwf, hgen, hhist⟩ := ih
    have hl := linkOnly_detachOp N p ref
    exact ⟨wf_detachOp hwf ref, fun i => ((hl i).1).trans (hgen i), hhist⟩

/-- C7 (amended): in every reachable pool, `spawn` returns the nil handle
iff `first_free = 0`; otherwise it returns a handle that is valid
immediately afterwards, whose slot has a default-initialised payload and
all four hierarchy links zero, and whose generation is the slot's previous
generation plus one MODULO `2^32` — which is strictly greater than the
generation of every handle previously issued for that slot provided the
slot has been allocated fewer than `2^32` times (the unamended strictness
claim fails once the 32-bit counter wraps; see the counterexample). -/
theorem spawn_spec_amended (N : Nat) (hN : 2 ≤ N) (p : ThingPool T) (a : Nat → Nat)
    (h : List ThingRef) (hr : Reach T N p a h) :
    ((spawnOp p).2 = NilRef ↔ p.first_free = 0) ∧
    ((spawnOp p).2 ≠ NilRef →
      isValid N (spawnOp p).1 (spawnOp p).2 = true ∧
      ((spawnOp p).1.nodes (spawnOp p).2.index).data = default ∧
      ((spawnOp p).1.nodes (spawnOp p).2.index).parent = 0 ∧
      ((spawnOp p).1.nodes (spawnOp p).2.index).first_child = 0 ∧
      ((spawnOp p).1.nodes (spawnOp p).2.index).next_sibling = 0 ∧
      ((spawnOp p).1.nodes (spawnOp p).2.index).prev_sibling = 0 ∧
      (spawnOp p).2.generation = ((p.nodes (spawnOp p).2.index).generation + 1) % genWidth ∧
      (a (spawnOp p).2.index + 1 < genWidth →
        ∀ r0 ∈ h, r0.index = (spawnOp p).2.index →
          r0.generation < (spawnOp p).2.generation)) := by
  obtain ⟨hwf, hgen, hhist⟩ := reach_invariant N hN hr
  by_cases hff : p.first_free = 0
  · rw [spawnOp, if_pos hff]
    exact ⟨by simp [hff], fun hcon => absurd rfl hcon⟩
  · rw [spawnOp, if_neg hff]
    constructor
    · simp only [NilRef]
      constructor
      · intro hcon
        exact absurd (congrArg ThingRef.index hcon) hff
      · intro hcon
        exact absurd hcon hff
    · intro _
      refine ⟨?_, by simp [defaultNode], by simp [defaultNode], by simp [defaultNode],
        by simp [defaultNode], by simp [defaultNode], rfl, ?_⟩
      · rw [isValid_eq_true_iff]
        exact ⟨Nat.pos_of_ne_zero hff, hwf.1, by simp [defaultNode], by simp⟩
      · intro hlt r0 hr0 hidx
        obtain ⟨_, _, m, hm1, hm2, hm3⟩ := hhist r0 hr0
        rw [hidx] at hm2
        show r0.generation < ((p.nodes p.first_free).generation + 1) % genWidth
        rw [hgen, add_one_mod_width, Nat.mod_eq_of_lt hlt, hm3]
        have : m % genWidth ≤ m := Nat.mod_le m genWidth
        omega

/-- Witness for the amended C7 at the freshly constructed capacity-2 pool:
`spawn` on it returns the valid handle `(1,1)` with default payload, zero
links and generation `0 + 1`. -/
theorem spawn_spec_amended_witness :
    Reach Unit 2 (initPool Unit 2) (fun _ => 0) [] ∧
    (((spawnOp (initPool Unit 2)).2 = NilRef ↔ (initPool Unit 2).first_free = 0) ∧
     ((spawnOp (initPool Unit 2)).2 ≠ NilRef →
       isValid 2 (spawnOp (initPool Unit 2)).1 (spawnOp (initPool Unit 2)).2 = true ∧
       ((spawnOp (initPool Unit 2)).1.nodes (spawnOp (initPool Unit 2)).2.index).data = default ∧
       ((spawnOp (initPool Unit 2)).1.nodes (spawnOp (initPool Unit 2)).2.index).parent = 0 ∧
       ((spawnOp (initPool Unit 2)).1.nodes (spawnOp (initPool Unit 2)).2.index).first_child = 0 ∧
       ((spawnOp (initPool Unit 2)).1.nodes (spawnOp (initPool Unit 2)).2.index).next_sibling = 0 ∧
       ((spawnOp (initPool Unit 2)).1.nodes (spawnOp (initPool Unit 2)).2.index).prev_sibling = 0 ∧
       (spawnOp (initPool Unit 2)).2.generation
         = (((initPool Unit 2).nodes (spawnOp (initPool Unit 2)).2.index).generation + 1) % genWidth ∧
       ((fun _ : Nat => 0) (spawnOp (initPool Unit 2)).2.index + 1 < genWidth →
         ∀ r0 ∈ ([] : List ThingRef), r0.index = (spawnOp (initPool Unit 2)).2.index →
           r0.generation < (spawnOp (initPool Unit 2)).2.generation))) :=
  ⟨Reach.init,
   spawn_spec_amended 2 (by omega) (initPool Unit 2) (fun _ => 0) [] Reach.init⟩

theorem wrap_spawn (k : Nat) :
    spawnOp (wrapPool k) =
      ({ wrapPool k with
          nodes := upd (wrapPool k).nodes 1
            { defaultNode Unit with generation := (k + 1) % genWidth, is_active := true },
          first_free := 0 }, ⟨1, (k + 1) % genWidth⟩) := by
  have key : (((wrapPool k).nodes (wrapPool k).first_free).generation + 1) % genWidth
      = (k + 1) % genWidth := by
    show (k % genWidth + 1) % genWidth = (k + 1) % genWidth
    exact add_one_mod_width k
  rw [spawnOp, if_neg (show ¬(wrapPool k).first_free = 0 by simp [wrapPool])]
  dsimp only
  rw [key]
  rfl

/-- `destroy` of an active, childless, parentless slot: the slot is cleared
with its generation preserved and pushed onto the free-list head. -/
theorem destroyRec_leaf (N fuel : Nat) (p : ThingPool T) (idx : Nat)
    (ha : (p.nodes idx).is_active = true) (hfc : (p.nodes idx).first_child = 0)
    (hpar : (p.nodes idx).parent = 0) :
    destroyRec N (fuel + 1) p idx = some
      { p with
          nodes := upd p.nodes idx { defaultNode T with generation := (p.nodes idx).generation },
          next_free := upd p.next_free idx p.first_free,
          first_free := idx } := by
  simp [destroyRec, ha, hfc, hpar]

theorem wrap_destroy (k : Nat) :
    destroyOp 2 (spawnOp (wrapPool k)).1 ⟨1, (k + 1) % genWidth⟩
      = some (wrapPool (k + 1)) := by
  rw [wrap_spawn]
  have hval : isValid 2 ({ wrapPool k with
      nodes := upd (wrapPool k).nodes 1
        { defaultNode Unit with generation := (k + 1) % genWidth, is_active := true },
      first_free := 0 }) ⟨1, (k + 1) % genWidth⟩ = true := by
    rw [isValid_eq_true_iff]
    exact ⟨Nat.zero_lt_one, Nat.one_lt_two, by simp [defaultNode], by simp⟩
  rw [destroyOp, if_neg (by simp [hval])]
  show destroyRec 2 (8 + 1) _ 1 = _
  rw [destroyRec_leaf 2 8 _ 1 (by simp [defaultNode]) (by simp [defaultNode])
    (by simp [defaultNode])]
  refine congrArg some (poolEq _ _ ?_ ?_ rfl)
  · funext j
    by_cases hj : j = 1
    · subst hj
      simp [wrapPool, defaultNode]
    · simp [upd, hj, wrapPool]
  · funext j
    by_cases hj : j = 1
    · subst hj
      simp [wrapPool]
    · simp [upd, hj, wrapPool]

theorem wrap_reach : ∀ k : Nat, Reach Unit 2 (wrapPool k) (wrapAlloc k) (wrapHist k) := by
  intro k
  induction k with
  | zero =>
    have h1 : initPool Unit 2 = wrapPool 0 := by
      refine poolEq _ _ ?_ ?_ rfl
      · funext j
        by_cases hj : j = 1
        · subst hj; simp [initPool, wrapPool, defaultNode]
        · simp [initPool, wrapPool, hj]
      · funext j
        simp only [initPool, wrapPool]
        split
        · next hc => omega
        · rfl
    have h2 : (fun _ : Nat => 0) = wrapAlloc 0 := by
      funext j
      simp [wrapAlloc]
    have hinit := Reach.init (T := Unit) (N := 2)
    rw [h1, h2] at hinit
    exact hinit
  | succ n ih =>
    have s1 := Reach.spawn_ok (T := Unit) (N := 2) _ _ _ ih
      (show ¬(wrapPool n).first_free = 0 by simp [wrapPool])
    have ha : upd (wrapAlloc n) (wrapPool n).first_free
        (wrapAlloc n (wrapPool n).first_free + 1) = wrapAlloc (n + 1) := by
      funext j
      by_cases hj : j = 1
      · subst hj
        show upd (wrapAlloc n) 1 (wrapAlloc n 1 + 1) 1 = n + 1
        simp [wrapAlloc]
      · show upd (wrapAlloc n) 1 (wrapAlloc n 1 + 1) j = wrapAlloc (n + 1) j
        simp [upd, hj, wrapAlloc]
    have hh : (spawnOp (wrapPool n)).2 :: wrapHist n = wrapHist (n + 1) := by
      rw [wrap_spawn]
      rfl
    rw [ha, hh] at s1
    exact Reach.destroy _ _ _ _ ⟨1, (n + 1) % genWidth⟩ s1 (wrap_destroy n)

theorem wrapHist_mem_one : ∀ k : Nat, 1 ≤ k → (⟨1, 1⟩ : ThingRef) ∈ wrapHist k := by
  intro k
  induction k with
  | zero => intro hcon; omega
  | succ n ih =>
    intro _
    by_cases hn : 1 ≤ n
    · exact List.mem_cons_of_mem _ (ih hn)
    · have hzero : n = 0 := by omega
      subst hzero
      have h1 : (1 : Nat) % genWidth = 1 := by norm_num [genWidth]
      show (⟨1, 1⟩ : ThingRef) ∈ ⟨1, (0 + 1) % genWidth⟩ :: wrapHist 0
      rw [show ((0 : Nat) + 1) % genWidth = 1 from h1]
      exact List.mem_cons_self _ _

/-- C7 (counterexample): the generation counter is a `uint32_t` and wraps:
after `2^32 − 1` spawn/destroy rounds on one slot of a capacity-2 pool —
a reachable sequence of public operations — the slot's generation is
`2^32 − 1`, and the next `spawn` issues the non-nil handle `(1, 0)`, whose
generation is NOT strictly greater than that of the previously issued
handle `(1, 1)`.  So spawn's result is not always strictly greater in
generation than every handle previously issued for the slot. -/
theorem spawn_generation_not_strictly_increasing :
    ¬ (∀ (p : ThingPool Unit) (a : Nat → Nat) (h : List ThingRef),
        Reach Unit 2 p a h → (spawnOp p).2 ≠ NilRef →
        ∀ r0 ∈ h, r0.index = (spawnOp p).2.index →
          r0.generation < (spawnOp p).2.generation) := by
  intro hclaim
  have h2 : (spawnOp (wrapPool (genWidth - 1))).2 = ⟨1, 0⟩ := by
    rw [wrap_spawn]
    norm_num [genWidth]
  have hmem := wrapHist_mem_one (genWidth - 1) (by norm_num [genWidth])
  have hr := wrap_reach (genWidth - 1)
  have hfin := hclaim _ _ _ hr (by rw [h2]; simp [NilRef]) ⟨1, 1⟩ hmem (by rw [h2])
  rw [h2] at hfin
  exact absurd hfin (by decide)

/-- The per-entry bookkeeping of the flush loop: flags are one per queue
entry, an entry that is invalid when the flush starts is never counted, and
of two equal entries only the earlier one can be counted. -/
theorem flushAux_props (N : Nat) : ∀ (q : List ThingRef) (p p2 : ThingPool T)
    (flags : List Bool), flushAux N p q = some (p2, flags) →
    flags.length = q.length ∧
    (∀ (k : Nat) (hqk : k < q.length) (hfk : k < flags.length),
       isValid N p (q.get ⟨k, hqk⟩) = false → flags.get ⟨k, hfk⟩ = false) ∧
    (∀ (k l : Nat) (hqk : k < q.length) (hql : l < q.length)
       (hfk : k < flags.length) (hfl : l < flags.length),
       k < l → q.get ⟨k, hqk⟩ = q.get ⟨l, hql⟩ →
       flags.get ⟨k, hfk⟩ = true → flags.get ⟨l, hfl⟩ = false) := by
  intro q
  induction q with
  | nil =>
    intro p p2 flags h
    obtain ⟨rfl, rfl⟩ : p = p2 ∧ [] = flags := by
      simpa [flushAux] using h
    exact ⟨rfl, by intro k hqk; simp at hqk, by intro k l hqk; simp at hqk⟩
  | cons hd rest ih =>
    intro p p2 flags h
    rw [flushAux] at h
    rcases hd1 : destroyOp N p hd with _ | p1
    · rw [hd1] at h; simp at h
    · rw [hd1] at h
      replace h : (match flushAux N p1 rest with
          | none => none
          | some (p3, fl) => some (p3, isValid N p hd :: fl)) = some (p2, flags) := h
      rcases hf : flushAux N p1 rest with _ | ⟨p3, fl⟩
      · rw [hf] at h; simp at h
      · rw [hf] at h
        obtain ⟨rfl, rfl⟩ : p3 = p2 ∧ isValid N p hd :: fl = flags := by
          simpa using h
        obtain ⟨ihlen, ihstale, ihdup⟩ := ih p1 _ fl hf
        refine ⟨by simpa using ihlen, ?_, ?_⟩
        · intro k hqk hfk hval
          match k with
          | 0 => simpa using hval
          | j + 1 =>
            have hqj : j < rest.length := by simpa using hqk
            have hfj : j < fl.length := by simpa using hfk
            have : isValid N p1 (rest.get ⟨j, hqj⟩) = false :=
              destroyOp_preserves_invalid N p p1 hd _ hd1 (by simpa using hval)
            simpa using ihstale j hqj hfj this
        · intro k l hqk hql hfk hfl hkl heq htrue
          match k, l with
          | 0, m + 1 =>
            have hqm : m < rest.length := by simpa using hql
            have hfm : m < fl.length := by simpa using hfl
            have hvhd : isValid N p hd = true := by simpa using htrue
            have hinv1 : isValid N p1 hd = false :=
              destroyOp_invalidates N p p1 hd hd1 hvhd
            have heq2 : rest.get ⟨m, hqm⟩ = hd := by
              have := heq; simpa using this.symm
            have : isValid N p1 (rest.get ⟨m, hqm⟩) = false := heq2 ▸ hinv1
            simpa using ihstale m hqm hfm this
          | j + 1, m + 1 =>
            have hqj : j < rest.length := by simpa using hqk
            have hqm : m < rest.length := by simpa using hql
            have hfj : j < fl.length := by simpa using hfk
            have hfm : m < fl.length := by simpa using hfl
            have hjm : j < m := by omega
            have heq2 : rest.get ⟨j, hqj⟩ = rest.get ⟨m, hqm⟩ := by simpa using heq
            simpa using ihdup j m hqj hqm hfj hfm hjm heq2 (by simpa using htrue)

/-- C5: `flush_destroy_later` walks the deferred queue in insertion order,
calling `destroy` on each entry (this is the definition of `flushAux`), and
returns exactly the number of entries that were valid at the moment of
their individual destroy call (the `true` flags).  Consequently a queue
entry that is stale when the flush starts contributes zero, and of several
duplicate entries at most the first contributes; the queue is left empty. -/
theorem flush_destroy_later_count_spec (N : Nat) (s : QueuePool T) (n : Nat)
    (s' : QueuePool T) (hrun : flushDestroyLater N s = some (n, s')) :
    ∃ flags : List Bool,
      flushAux N s.pool s.queue = some (s'.pool, flags) ∧
      n = flags.count true ∧
      s'.queue = [] ∧
      flags.length = s.queue.length ∧
      (∀ (k : Nat) (hqk : k < s.queue.length) (hfk : k < flags.length),
         isValid N s.pool (s.queue.get ⟨k, hqk⟩) = false →
           flags.get ⟨k, hfk⟩ = false) ∧
      (∀ (k l : Nat) (hqk : k < s.queue.length) (hql : l < s.queue.length)
         (hfk : k < flags.length) (hfl : l < flags.length),
         k < l → s.queue.get ⟨k, hqk⟩ = s.queue.get ⟨l, hql⟩ →
         flags.get ⟨k, hfk⟩ = true → flags.get ⟨l, hfl⟩ = false) := by
  rw [flushDestroyLater] at hrun
  rcases hf : flushAux N s.pool s.queue with _ | ⟨p2, flags⟩
  · rw [hf] at hrun; simp at hrun
  · rw [hf] at hrun
    obtain ⟨hn, hs⟩ : flags.count true = n ∧ (⟨p2, []⟩ : QueuePool T) = s' := by
      simpa using hrun
    obtain ⟨hlen, hstale, hdup⟩ := flushAux_props N s.queue s.pool p2 flags hf
    subst hs
    exact ⟨flags, rfl, hn.symm, rfl, hlen, hstale, hdup⟩

/-- Witness for C5: flushing the queue `[(1,1), (1,1), (3,1)]` over a pool
whose valid handles are `(1,1) (2,1) (3,1)` destroys two entries: the
duplicate `(1,1)` is counted once and `(3,1)` once. -/
theorem flush_destroy_later_count_spec_witness :
    flushDestroyLater 8 queuedPoolExample
      = some ((flushDestroyLater 8 queuedPoolExample).getD (0, queuedPoolExample)) ∧
    ((flushDestroyLater 8 queuedPoolExample).getD (0, queuedPoolExample)).1 = 2 ∧
    (∃ flags : List Bool,
      flushAux 8 queuedPoolExample.pool queuedPoolExample.queue
        = some (((flushDestroyLater 8 queuedPoolExample).getD (0, queuedPoolExample)).2.pool, flags) ∧
      ((flushDestroyLater 8 queuedPoolExample).getD (0, queuedPoolExample)).1 = flags.count true ∧
      ((flushDestroyLater 8 queuedPoolExample).getD (0, queuedPoolExample)).2.queue = [] ∧
      flags.length = queuedPoolExample.queue.length ∧
      (∀ (k : Nat) (hqk : k < queuedPoolExample.queue.length) (hfk : k < flags.length),
         isValid 8 queuedPoolExample.pool (queuedPoolExample.queue.get ⟨k, hqk⟩) = false →
           flags.get ⟨k, hfk⟩ = false) ∧
      (∀ (k l : Nat) (hqk : k < queuedPoolExample.queue.length)
         (hql : l < queuedPoolExample.queue.length)
         (hfk : k < flags.length) (hfl : l < flags.length),
         k < l → queuedPoolExample.queue.get ⟨k, hqk⟩ = queuedPoolExample.queue.get ⟨l, hql⟩ →
         flags.get ⟨k, hfk⟩ = true → flags.get ⟨l, hfl⟩ = false)) :=
  ⟨rfl, rfl,
   flush_destroy_later_count_spec 8 queuedPoolExample
     ((flushDestroyLater 8 queuedPoolExample).getD (0, queuedPoolExample)).1
     ((flushDestroyLater 8 queuedPoolExample).getD (0, queuedPoolExample)).2 rfl⟩

theorem nodeEq (a b : Node T) (h1 : a.generation = b.generation)
    (h2 : a.is_active = b.is_active) (h3 : a.parent = b.parent)
    (h4 : a.first_child = b.first_child) (h5 : a.next_sibling = b.next_sibling)
    (h6 : a.prev_sibling = b.prev_sibling) (h7 : a.data = b.data) : a = b := by
  cases a; cases b; simp_all

theorem sizeT_pos : ∀ t : DTree, 1 ≤ sizeT t
  | .mk i fs => by simp [sizeT]

theorem root_mem_nodesT : ∀ t : DTree, t.root ∈ nodesT t
  | .mk i fs => by simp [nodesT, DTree.root]

mutual
theorem nodesT_length : ∀ t : DTree, (nodesT t).length = sizeT t
  | .mk i fs => by simp [nodesT, sizeT, nodesF_length fs]; omega
theorem nodesF_length : ∀ fs : DForest, (nodesF fs).length = sizeF fs
  | .nil => by simp [nodesF, sizeF]
  | .cons t ts => by simp [nodesF, sizeF, nodesT_length t, nodesF_length ts]
end

mutual
theorem mem_postT : ∀ (t : DTree) (j : Nat), j ∈ postT t ↔ j ∈ nodesT t
  | .mk i fs, j => by
    simp only [postT, nodesT, List.mem_append, List.mem_cons, List.mem_singleton,
      mem_postF fs j]
    tauto
theorem mem_postF : ∀ (fs : DForest) (j : Nat), j ∈ postF fs ↔ j ∈ nodesF fs
  | .nil, j => by simp [postF, nodesF]
  | .cons t ts, j => by
    simp only [postF, nodesF, List.mem_append, mem_postT t j, mem_postF ts j]
end

theorem rootsF_subset : ∀ fs : DForest, ∀ x ∈ rootsF fs, x ∈ nodesF fs
  | .nil => by simp [rootsF]
  | .cons t ts => by
    intro x hx
    simp only [rootsF, List.mem_cons] at hx
    simp only [nodesF, List.mem_append]
    rcases hx with rfl | hx
    · exact Or.inl (root_mem_nodesT t)
    · exact Or.inr (rootsF_subset ts x hx)

theorem nodup_nodesT_mk (i : Nat) (fs : DForest) (h : (nodesT (.mk i fs)).Nodup) :
    i ∉ nodesF fs ∧ (nodesF fs).Nodup := by
  rw [show nodesT (.mk i fs) = i :: nodesF fs from by simp [nodesT]] at h
  exact ⟨(List.nodup_cons.1 h).1, (List.nodup_cons.1 h).2⟩

theorem nodup_nodesF_cons (t : DTree) (ts : DForest) (h : (nodesF (.cons t ts)).Nodup) :
    (nodesT t).Nodup ∧ (nodesF ts).Nodup ∧ ∀ x ∈ nodesT t, x ∉ nodesF ts := by
  rw [show nodesF (.cons t ts) = nodesT t ++ nodesF ts from by simp [nodesF]] at h
  rw [List.nodup_append] at h
  exact ⟨h.1, h.2.1, fun x hx hx2 => h.2.2 hx hx2⟩

theorem pushAll_append : ∀ (A B : List Nat) (nf : Nat → Nat) (ff : Nat),
    pushAll (A ++ B) nf ff = pushAll B (pushAll A nf ff).1 (pushAll A nf ff).2 := by
  intro A
  induction A with
  | nil => intro B nf ff; simp [pushAll]
  | cons a rest ih => intro B nf ff; simp [pushAll, ih]

theorem pushAll_nf_not_mem : ∀ (L : List Nat) (nf : Nat → Nat) (ff j : Nat),
    j ∉ L → (pushAll L nf ff).1 j = nf j := by
  intro L
  induction L with
  | nil => intro nf ff j _; rfl
  | cons a rest ih =>
    intro nf ff j hj
    simp only [List.mem_cons, not_or] at hj
    rw [pushAll, ih _ _ _ hj.2, upd_other _ _ _ _ hj.1]

theorem matchesT_elim_nil {N : Nat} {q : ThingPool T} {i : Nat}
    (h : matchesT N q (.mk i .nil) = true) :
    0 < i ∧ i < N ∧ (q.nodes i).is_active = true ∧ (q.nodes i).first_child = 0 := by
  simp only [matchesT, Bool.and_eq_true, decide_eq_true_eq, beq_iff_eq] at h
  exact ⟨h.1.1.1, h.1.1.2, h.1.2, h.2⟩

theorem matchesT_elim_cons {N : Nat} {q : ThingPool T} {i : Nat} {t : DTree} {ts : DForest}
    (h : matchesT N q (.mk i (.cons t ts)) = true) :
    0 < i ∧ i < N ∧ (q.nodes i).is_active = true ∧
    (q.nodes i).first_child = t.root ∧
    ringBool q i (rootsF (.cons t ts)) = true ∧
    matchesF N q (.cons t ts) = true := by
  simp only [matchesT, Bool.and_eq_true, decide_eq_true_eq, beq_iff_eq] at h
  exact ⟨h.1.1.1, h.1.1.2, h.1.2, h.2.1.1, h.2.1.2, h.2.2⟩

theorem matchesF_elim_cons {N : Nat} {q : ThingPool T} {t : DTree} {ts : DForest}
    (h : matchesF N q (.cons t ts) = true) :
    matchesT N q t = true ∧ matchesF N q ts = true := by
  simp only [matchesF, Bool.and_eq_true] at h
  exact h

theorem matchesT_root_facts : ∀ (t : DTree) (N : Nat) (q : ThingPool T),
    matchesT N q t = true →
    0 < t.root ∧ t.root < N ∧ (q.nodes t.root).is_active = true
  | .mk i .nil, N, q, h => by
    obtain ⟨h1, h2, h3, _⟩ := matchesT_elim_nil h
    exact ⟨h1, h2, h3⟩
  | .mk i (.cons t ts), N, q, h => by
    obtain ⟨h1, h2, h3, _⟩ := matchesT_elim_cons h
    exact ⟨h1, h2, h3⟩

mutual
theorem matches_bounds_T : ∀ (t : DTree) (N : Nat) (q : ThingPool T),
    matchesT N q t = true → ∀ j ∈ nodesT t, 0 < j ∧ j < N
  | .mk i .nil, N, q, h, j, hj => by
    obtain ⟨h1, h2, _, _⟩ := matchesT_elim_nil h
    have : j = i := by simpa [nodesT, nodesF] using hj
    subst this
    exact ⟨h1, h2⟩
  | .mk i (.cons t ts), N, q, h, j, hj => by
    obtain ⟨h1, h2, _, _, _, hm⟩ := matchesT_elim_cons h
    rcases (by simpa [nodesT] using hj : j = i ∨ j ∈ nodesF (.cons t ts)) with rfl | hj2
    · exact ⟨h1, h2⟩
    · exact matches_bounds_F (.cons t ts) N q hm j hj2
theorem matches_bounds_F : ∀ (fs : DForest) (N : Nat) (q : ThingPool T),
    matchesF N q fs = true → ∀ j ∈ nodesF fs, 0 < j ∧ j < N
  | .nil, N, q, _, j, hj => by simp [nodesF] at hj
  | .cons t ts, N, q, h, j, hj => by
    obtain ⟨ht, hts⟩ := matchesF_elim_cons h
    rcases (by simpa [nodesF] using hj : j ∈ nodesT t ∨ j ∈ nodesF ts) with hj2 | hj2
    · exact matches_bounds_T t N q ht j hj2
    · exact matches_bounds_F ts N q hts j hj2
end

theorem ring_parent {q : ThingPool T} {i : Nat} {rs : List Nat}
    (h : ringBool q i rs = true) : ∀ x ∈ rs, (q.nodes x).parent = i := by
  cases rs with
  | nil => simp
  | cons r rest =>
    simp only [ringBool, Bool.and_eq_true, beq_iff_eq, List.all_eq_true] at h
    intro x hx
    exact h.2 x hx

theorem ring_next_single {q : ThingPool T} {i r : Nat}
    (h : ringBool q i [r] = true) :
    (q.nodes r).next_sibling = r ∧ (q.nodes r).prev_sibling = r := by
  simp only [ringBool, Bool.and_eq_true, beq_iff_eq, List.getLastD] at h
  exact ⟨h.1.1.1.2, h.1.2⟩

theorem ring_next_head {q : ThingPool T} {i r s : Nat} {rest : List Nat}
    (h : ringBool q i (r :: s :: rest) = true) :
    (q.nodes r).next_sibling = s := by
  simp only [ringBool, Bool.and_eq_true, beq_iff_eq] at h
  have := h.1.1.1.1
  simp only [chainNextB, Bool.and_eq_true, beq_iff_eq] at this
  exact this.1

theorem ring_prev_head {q : ThingPool T} {i r : Nat} {rest : List Nat}
    (h : ringBool q i (r :: rest) = true) :
    (q.nodes r).prev_sibling = (r :: rest).getLastD 0 := by
  simp only [ringBool, Bool.and_eq_true, beq_iff_eq] at h
  exact h.1.2

theorem ring_wrap_next {q : ThingPool T} {i r : Nat} {rest : List Nat}
    (h : ringBool q i (r :: rest) = true) :
    (q.nodes ((r :: rest).getLastD 0)).next_sibling = r := by
  simp only [ringBool, Bool.and_eq_true, beq_iff_eq] at h
  exact h.1.1.1.2

theorem ring_chains {q : ThingPool T} {i r : Nat} {rest : List Nat}
    (h : ringBool q i (r :: rest) = true) :
    chainNextB q (r :: rest) = true ∧ chainPrevB q (r :: rest) = true := by
  simp only [ringBool, Bool.and_eq_true, beq_iff_eq] at h
  exact ⟨h.1.1.1.1, h.1.1.2⟩

theorem getLastD_cons_mem : ∀ (rest : List Nat) (r : Nat),
    (r :: rest).getLastD 0 ∈ r :: rest := by
  intro rest
  induction rest with
  | nil => intro r; simp [List.getLastD]
  | cons s rest' ih =>
    intro r
    rw [List.getLastD_cons, List.getLastD_cons]
    have h2 := ih s
    rw [List.getLastD_cons] at h2
    exact List.mem_cons_of_mem r h2

theorem getLastD_cons_shift (r s : Nat) (rest : List Nat) :
    (r :: s :: rest).getLastD 0 = (s :: rest).getLastD 0 := by
  rw [List.getLastD_cons, List.getLastD_cons, List.getLastD_cons]

theorem nodup_dropLast_ne_getLastD : ∀ (l : List Nat), l.Nodup →
    ∀ x ∈ l.dropLast, x ≠ l.getLastD 0 := by
  intro l
  induction l with
  | nil => simp
  | cons a l' ih =>
    intro hnd x hx
    cases l' with
    | nil => simp at hx
    | cons b l2 =>
      have hd : (a :: b :: l2).dropLast = a :: (b :: l2).dropLast := by
        simp [List.dropLast]
      rw [hd] at hx
      rw [getLastD_cons_shift]
      rcases List.mem_cons.1 hx with rfl | hx2
      · intro hcon
        have hmem := getLastD_cons_mem l2 b
        rw [← hcon] at hmem
        exact (List.nodup_cons.1 hnd).1 hmem
      · exact ih (List.nodup_cons.1 hnd).2 x hx2

theorem chainNextB_congr : ∀ (rs : List Nat) (q q1 : ThingPool T),
    (∀ x ∈ rs.dropLast, (q1.nodes x).next_sibling = (q.nodes x).next_sibling) →
    chainNextB q1 rs = chainNextB q rs := by
  intro rs
  induction rs with
  | nil => intro q q1 _; rfl
  | cons a rest ih =>
    intro q q1 hx
    cases rest with
    | nil => rfl
    | cons b rest' =>
      have hd : (a :: b :: rest').dropLast = a :: (b :: rest').dropLast := by
        simp [List.dropLast]
      rw [hd] at hx
      show (((q1.nodes a).next_sibling == b) && chainNextB q1 (b :: rest'))
        = (((q.nodes a).next_sibling == b) && chainNextB q (b :: rest'))
      rw [hx a (List.mem_cons_self a _),
        ih q q1 (fun x hxm => hx x (List.mem_cons_of_mem a hxm))]

theorem chainPrevB_congr : ∀ (rs : List Nat) (q q1 : ThingPool T),
    (∀ x ∈ rs.tail, (q1.nodes x).prev_sibling = (q.nodes x).prev_sibling) →
    chainPrevB q1 rs = chainPrevB q rs := by
  intro rs
  induction rs with
  | nil => intro q q1 _; rfl
  | cons a rest ih =>
    intro q q1 hx
    cases rest with
    | nil => rfl
    | cons b rest' =>
      show (((q1.nodes b).prev_sibling == a) && chainPrevB q1 (b :: rest'))
        = (((q.nodes b).prev_sibling == a) && chainPrevB q (b :: rest'))
      rw [hx b (List.mem_cons_self b _),
        ih q q1 (fun x hxm => hx x (List.mem_cons_of_mem b hxm))]

theorem list_all_congr {α : Type} (l : List α) (f g : α → Bool)
    (h : ∀ x ∈ l, f x = g x) : l.all f = l.all g := by
  induction l with
  | nil => rfl
  | cons a rest ih =>
    simp only [List.all_cons]
    rw [h a (List.mem_cons_self a _), ih (fun x hx => h x (List.mem_cons_of_mem a hx))]

theorem ringBool_congr : ∀ (rs : List Nat) (i : Nat) (q q1 : ThingPool T),
    (∀ x ∈ rs, (q1.nodes x).next_sibling = (q.nodes x).next_sibling ∧
       (q1.nodes x).prev_sibling = (q.nodes x).prev_sibling ∧
       (q1.nodes x).parent = (q.nodes x).parent) →
    ringBool q1 i rs = ringBool q i rs := by
  intro rs i q q1 hx
  cases rs with
  | nil => rfl
  | cons r rest =>
    have hlast := getLastD_cons_mem rest r
    simp only [ringBool]
    rw [chainNextB_congr (r :: rest) q q1
        (fun x hxm => (hx x (List.dropLast_subset _ hxm)).1),
      chainPrevB_congr (r :: rest) q q1
        (fun x hxm => (hx x (List.tail_subset _ hxm)).2.1),
      (hx _ hlast).1, (hx r (List.mem_cons_self r _)).2.1]
    have hall : ((r :: rest).all fun x => (q1.nodes x).parent == i)
        = ((r :: rest).all fun x => (q.nodes x).parent == i) := by
      apply list_all_congr
      intro x hxm
      rw [(hx x hxm).2.2]
    rw [hall]

/-- After splicing the head `r` out of the circular ring `r :: s :: rest`
(the two writes `last.next := s` and `s.prev := last`), the remaining
elements form the circular ring `s :: rest`. -/
theorem ring_reanchor (q q1 : ThingPool T) (i r s : Nat) (rest : List Nat)
    (hring : ringBool q i (r :: s :: rest) = true)
    (hnodup : (s :: rest).Nodup)
    (hs_prev : (q1.nodes s).prev_sibling = (s :: rest).getLastD 0)
    (hs_next : (q1.nodes s).next_sibling = (q.nodes s).next_sibling)
    (hs_par : (q1.nodes s).parent = (q.nodes s).parent)
    (hlast_next : (q1.nodes ((s :: rest).getLastD 0)).next_sibling = s)
    (hlast_prev : (q1.nodes ((s :: rest).getLastD 0)).prev_sibling
      = (q.nodes ((s :: rest).getLastD 0)).prev_sibling)
    (hlast_par : (q1.nodes ((s :: rest).getLastD 0)).parent
      = (q.nodes ((s :: rest).getLastD 0)).parent)
    (hother : ∀ x ∈ s :: rest, x ≠ s → x ≠ (s :: rest).getLastD 0 →
      q1.nodes x = q.nodes x) :
    ringBool q1 i (s :: rest) = true := by
  have hchains := ring_chains hring
  have hchainN : chainNextB q (s :: rest) = true := by
    have h2 : (((q.nodes r).next_sibling == s) && chainNextB q (s :: rest)) = true :=
      hchains.1
    simp only [Bool.and_eq_true] at h2
    exact h2.2
  have hchainP : chainPrevB q (s :: rest) = true := by
    have h2 : (((q.nodes s).prev_sibling == r) && chainPrevB q (s :: rest)) = true :=
      hchains.2
    simp only [Bool.and_eq_true] at h2
    exact h2.2
  have hparents := ring_parent hring
  have hlast_mem : (s :: rest).getLastD 0 ∈ s :: rest := getLastD_cons_mem rest s
  have hs_not_rest : s ∉ rest := (List.nodup_cons.1 hnodup).1
  have hln : chainNextB q1 (s :: rest) = chainNextB q (s :: rest) := by
    apply chainNextB_congr
    intro x hx
    by_cases hxs : x = s
    · subst hxs; exact hs_next
    · have hxl : x ≠ (s :: rest).getLastD 0 :=
        nodup_dropLast_ne_getLastD (s :: rest) hnodup x hx
      rw [hother x (List.dropLast_subset _ hx) hxs hxl]
  have hlp : chainPrevB q1 (s :: rest) = chainPrevB q (s :: rest) := by
    apply chainPrevB_congr
    intro x hx
    have hxs : x ≠ s := fun hcon => hs_not_rest (hcon ▸ hx)
    by_cases hxl : x = (s :: rest).getLastD 0
    · subst hxl; exact hlast_prev
    · rw [hother x (List.tail_subset _ hx) hxs hxl]
  simp only [ringBool, Bool.and_eq_true, beq_iff_eq, List.all_eq_true]
  refine ⟨⟨⟨⟨?_, ?_⟩, ?_⟩, ?_⟩, ?_⟩
  · rw [hln]; exact hchainN
  · exact hlast_next
  · rw [hlp]; exact hchainP
  · exact hs_prev
  · intro x hxm
    have hpx : (q.nodes x).parent = i := hparents x (List.mem_cons_of_mem r hxm)
    by_cases hxs : x = s
    · subst hxs
      rw [hs_par]; exact hpx
    · by_cases hxl : x = (s :: rest).getLastD 0
      · subst hxl
        rw [hlast_par]; exact hpx
      · rw [hother x hxm hxs hxl]; exact hpx

mutual
theorem matchesT_congr : ∀ (t : DTree) (N : Nat) (q q1 : ThingPool T),
    (nodesT t).Nodup →
    (∀ j ∈ nodesT t, (q1.nodes j).is_active = (q.nodes j).is_active ∧
       (q1.nodes j).first_child = (q.nodes j).first_child) →
    (∀ j ∈ nodesT t, j ≠ t.root →
       (q1.nodes j).parent = (q.nodes j).parent ∧
       (q1.nodes j).next_sibling = (q.nodes j).next_sibling ∧
       (q1.nodes j).prev_sibling = (q.nodes j).prev_sibling) →
    matchesT N q1 t = matchesT N q t
  | .mk i fs, N, q, q1, hnd, haf, hlk => by
    have hi_mem : i ∈ nodesT (.mk i fs) := by simp [nodesT]
    have hnd2 := nodup_nodesT_mk i fs hnd
    cases fs with
    | nil =>
      simp only [matchesT]
      rw [(haf i hi_mem).1, (haf i hi_mem).2]
    | cons t ts =>
      have hmemF : ∀ j ∈ nodesF (.cons t ts), j ∈ nodesT (.mk i (.cons t ts)) := by
        intro j hj; simp [nodesT, hj]
      have hne : ∀ j ∈ nodesF (.cons t ts), j ≠ i := by
        intro j hj hcon
        exact hnd2.1 (hcon ▸ hj)
      have hroot : (DTree.mk i (.cons t ts)).root = i := rfl
      have hring : ringBool q1 i (rootsF (.cons t ts)) = ringBool q i (rootsF (.cons t ts)) := by
        apply ringBool_congr
        intro x hx
        have hxn : x ∈ nodesF (.cons t ts) := rootsF_subset _ x hx
        obtain ⟨e1, e2, e3⟩ := hlk x (hmemF x hxn) (by rw [hroot]; exact hne x hxn)
        exact ⟨e2, e3, e1⟩
      have hmf : matchesF N q1 (.cons t ts) = matchesF N q (.cons t ts) := by
        apply matchesF_congr (.cons t ts) N q q1 hnd2.2
        · intro j hj
          exact haf j (hmemF j hj)
        · intro j hj hjr
          exact hlk j (hmemF j hj) (by rw [hroot]; exact hne j hj)
      simp only [matchesT]
      rw [(haf i hi_mem).1, (haf i hi_mem).2, hring, hmf]
theorem matchesF_congr : ∀ (fs : DForest) (N : Nat) (q q1 : ThingPool T),
    (nodesF fs).Nodup →
    (∀ j ∈ nodesF fs, (q1.nodes j).is_active = (q.nodes j).is_active ∧
       (q1.nodes j).first_child = (q.nodes j).first_child) →
    (∀ j ∈ nodesF fs, j ∉ rootsF fs →
       (q1.nodes j).parent = (q.nodes j).parent ∧
       (q1.nodes j).next_sibling = (q.nodes j).next_sibling ∧
       (q1.nodes j).prev_sibling = (q.nodes j).prev_sibling) →
    matchesF N q1 fs = matchesF N q fs
  | .nil, N, q, q1, _, _, _ => rfl
  | .cons t ts, N, q, q1, hnd, haf, hlk => by
    obtain ⟨hndT, hndF, hdisj⟩ := nodup_nodesF_cons t ts hnd
    have hmemT : ∀ j ∈ nodesT t, j ∈ nodesF (.cons t ts) := by
      intro j hj; simp [nodesF, hj]
    have hmemR : ∀ j ∈ nodesF ts, j ∈ nodesF (.cons t ts) := by
      intro j hj; simp [nodesF, hj]
    have ht : matchesT N q1 t = matchesT N q t := by
      apply matchesT_congr t N q q1 hndT
      · intro j hj
        exact haf j (hmemT j hj)
      · intro j hj hjr
        apply hlk j (hmemT j hj)
        simp only [rootsF, List.mem_cons, not_or]
        constructor
        · exact hjr
        · intro hcon
          exact hdisj j hj (rootsF_subset ts j hcon)
    have hts : matchesF N q1 ts = matchesF N q ts := by
      apply matchesF_congr ts N q q1 hndF
      · intro j hj
        exact haf j (hmemR j hj)
      · intro j hj hjr
        apply hlk j (hmemR j hj)
        simp only [rootsF, List.mem_cons, not_or]
        constructor
        · intro hcon
          subst hcon
          exact hdisj _ (root_mem_nodesT t) hj
        · exact hjr
    simp only [matchesF]
    rw [ht, hts]
end

theorem rootsF_nodup : ∀ fs : DForest, (nodesF fs).Nodup → (rootsF fs).Nodup
  | .nil, _ => by simp [rootsF]
  | .cons t ts, h => by
    obtain ⟨_, hndF, hdisj⟩ := nodup_nodesF_cons t ts h
    rw [show rootsF (.cons t ts) = t.root :: rootsF ts from by simp [rootsF]]
    rw [List.nodup_cons]
    exact ⟨fun hcon => hdisj _ (root_mem_nodesT t) (rootsF_subset ts _ hcon),
      rootsF_nodup ts hndF⟩

theorem ringBool_single_intro {q : ThingPool T} {i s : Nat}
    (h1 : (q.nodes s).next_sibling = s) (h2 : (q.nodes s).prev_sibling = s)
    (h3 : (q.nodes s).parent = i) : ringBool q i [s] = true := by
  simp [ringBool, chainNextB, chainPrevB, List.getLastD, h1, h2, h3]

theorem detachOp_resolves (N : Nat) (q : ThingPool T) (r g : Nat)
    (h0 : 0 < r) (hN : r < N) (hg : (q.nodes r).generation = g) :
    getNodeIdx N q ⟨r, g⟩ = r := by
  rw [getNodeIdx, if_neg]
  rintro (h | h | h)
  · have h2 : r = 0 := h
    omega
  · have h2 : N ≤ r := h
    omega
  · exact h hg

/-- Effect of `detach` on a sole ring member (`next_sibling` self-loop):
the node's links are zeroed, the parent's `first_child` is zeroed, and no
other slot changes. -/
theorem detachOp_effect_single (N : Nat) (q : ThingPool T) (r g : Nat)
    (h0 : 0 < r) (hN : r < N) (hg : (q.nodes r).generation = g)
    (hpar : (q.nodes r).parent ≠ 0) (hpr : (q.nodes r).parent ≠ r)
    (hnx : (q.nodes r).next_sibling = r) :
    (detachOp N q ⟨r, g⟩).nodes r
        = { q.nodes r with parent := 0, next_sibling := 0, prev_sibling := 0 } ∧
    (detachOp N q ⟨r, g⟩).nodes ((q.nodes r).parent)
        = { q.nodes ((q.nodes r).parent) with first_child := 0 } ∧
    (∀ j, j ≠ r → j ≠ (q.nodes r).parent → (detachOp N q ⟨r, g⟩).nodes j = q.nodes j) := by
  have hidx := detachOp_resolves N q r g h0 hN hg
  have hrp : r ≠ (q.nodes r).parent := fun hcon => hpr hcon.symm
  simp only [detachOp, hidx]
  rw [if_neg (by omega : ¬ r = 0), if_neg (by simpa using hpar), if_pos hnx]
  refine ⟨?_, ?_, ?_⟩
  · rw [setPrevF_nodes_same, setNextF_nodes_same, setParentF_nodes_same,
      setFirstChildF_nodes_other q _ 0 r hrp]
  · rw [setPrevF_nodes_other _ r 0 _ hpr, setNextF_nodes_other _ r 0 _ hpr,
      setParentF_nodes_other _ r 0 _ hpr, setFirstChildF_nodes_same]
  · intro j hjr hjp
    rw [setPrevF_nodes_other _ r 0 j hjr, setNextF_nodes_other _ r 0 j hjr,
      setParentF_nodes_other _ r 0 j hjr, setFirstChildF_nodes_other q _ 0 j hjp]

/-- Effect of `detach` on a ring member with distinct neighbours: the node
is spliced out (`prev.next := next`, `next.prev := prev`, the parent's
`first_child` advanced off the node if it pointed there), the node's links
are zeroed, and no other slot changes.  `prev = next` (a two-element ring)
is allowed: that one neighbour then receives both writes. -/
theorem detachOp_effect_splice (N : Nat) (q : ThingPool T) (r g : Nat)
    (h0 : 0 < r) (hN : r < N) (hg : (q.nodes r).generation = g)
    (hpar : (q.nodes r).parent ≠ 0)
    (hnx : (q.nodes r).next_sibling ≠ r)
    (hpv_r : (q.nodes r).prev_sibling ≠ r)
    (hpa_r : (q.nodes r).parent ≠ r)
    (hpa_nx : (q.nodes r).parent ≠ (q.nodes r).next_sibling)
    (hpa_pv : (q.nodes r).parent ≠ (q.nodes r).prev_sibling) :
    (detachOp N q ⟨r, g⟩).nodes r
        = { q.nodes r with parent := 0, next_sibling := 0, prev_sibling := 0 } ∧
    (detachOp N q ⟨r, g⟩).nodes ((q.nodes r).parent)
        = { q.nodes ((q.nodes r).parent) with
            first_child := if (q.nodes ((q.nodes r).parent)).first_child = r
              then (q.nodes r).next_sibling
              else (q.nodes ((q.nodes r).parent)).first_child } ∧
    ((q.nodes r).prev_sibling = (q.nodes r).next_sibling →
      (detachOp N q ⟨r, g⟩).nodes ((q.nodes r).next_sibling)
        = { q.nodes ((q.nodes r).next_sibling) with
            next_sibling := (q.nodes r).next_sibling,
            prev_sibling := (q.nodes r).prev_sibling }) ∧
    ((q.nodes r).prev_sibling ≠ (q.nodes r).next_sibling →
      (detachOp N q ⟨r, g⟩).nodes ((q.nodes r).prev_sibling)
        = { q.nodes ((q.nodes r).prev_sibling) with
            next_sibling := (q.nodes r).next_sibling } ∧
      (detachOp N q ⟨r, g⟩).nodes ((q.nodes r).next_sibling)
        = { q.nodes ((q.nodes r).next_sibling) with
            prev_sibling := (q.nodes r).prev_sibling }) ∧
    (∀ j, j ≠ r → j ≠ (q.nodes r).parent → j ≠ (q.nodes r).next_sibling →
      j ≠ (q.nodes r).prev_sibling → (detachOp N q ⟨r, g⟩).nodes j = q.nodes j) := by
  have hidx := detachOp_resolves N q r g h0 hN hg
  have hrp : r ≠ (q.nodes r).parent := fun hcon => hpa_r hcon.symm
  have hrnx : r ≠ (q.nodes r).next_sibling := fun hcon => hnx hcon.symm
  have hrpv : r ≠ (q.nodes r).prev_sibling := fun hcon => hpv_r hcon.symm
  simp only [detachOp, hidx]
  rw [if_neg (by omega : ¬ r = 0), if_neg (by simpa using hpar), if_neg hnx]
  have hq1r : (setNextF q ((q.nodes r).prev_sibling) ((q.nodes r).next_sibling)).nodes r
      = q.nodes r :=
    setNextF_nodes_other q _ _ r hrpv
  rw [hq1r]
  set q2 := setPrevF (setNextF q ((q.nodes r).prev_sibling) ((q.nodes r).next_sibling))
    ((q.nodes r).next_sibling) ((q.nodes r).prev_sibling) with hq2def
  have hq2r : q2.nodes r = q.nodes r := by
    rw [hq2def, setPrevF_nodes_other _ _ _ r hrnx, hq1r]
  have hq2pa : q2.nodes ((q.nodes r).parent) = q.nodes ((q.nodes r).parent) := by
    rw [hq2def, setPrevF_nodes_other _ _ _ _ hpa_nx,
      setNextF_nodes_other _ _ _ _ hpa_pv]
  rw [hq2pa, hq2r]
  set pa := (q.nodes r).parent with hpadef
  set nx := (q.nodes r).next_sibling with hnxdef
  set pv := (q.nodes r).prev_sibling with hpvdef
  by_cases hfc : (q.nodes pa).first_child = r
  · rw [if_pos hfc]
    refine ⟨?_, ?_, ?_, ?_, ?_⟩
    · rw [setPrevF_nodes_same, setNextF_nodes_same, setParentF_nodes_same,
        setFirstChildF_nodes_other _ _ _ r hrp, hq2r]
    · rw [if_pos hfc, setPrevF_nodes_other _ r 0 pa hpa_r,
        setNextF_nodes_other _ r 0 pa hpa_r, setParentF_nodes_other _ r 0 pa hpa_r,
        setFirstChildF_nodes_same, hq2pa]
    · intro hpveq
      rw [setPrevF_nodes_other _ r 0 nx hnx, setNextF_nodes_other _ r 0 nx hnx,
        setParentF_nodes_other _ r 0 nx hnx,
        setFirstChildF_nodes_other _ pa _ nx (fun hcon => hpa_nx hcon.symm),
        hq2def, setPrevF_nodes_same]
      rw [← hpveq, setNextF_nodes_same]
    · intro hpvne
      constructor
      · rw [setPrevF_nodes_other _ r 0 pv hpv_r, setNextF_nodes_other _ r 0 pv hpv_r,
          setParentF_nodes_other _ r 0 pv hpv_r,
          setFirstChildF_nodes_other _ pa _ pv (fun hcon => hpa_pv hcon.symm),
          hq2def, setPrevF_nodes_other _ nx pv pv hpvne, setNextF_nodes_same]
      · rw [setPrevF_nodes_other _ r 0 nx hnx, setNextF_nodes_other _ r 0 nx hnx,
          setParentF_nodes_other _ r 0 nx hnx,
          setFirstChildF_nodes_other _ pa _ nx (fun hcon => hpa_nx hcon.symm),
          hq2def, setPrevF_nodes_same,
          setNextF_nodes_other _ pv nx nx (fun hcon => hpvne hcon.symm)]
    · intro j hjr hjp hjn hjv
      rw [setPrevF_nodes_other _ r 0 j hjr, setNextF_nodes_other _ r 0 j hjr,
        setParentF_nodes_other _ r 0 j hjr,
        setFirstChildF_nodes_other _ pa _ j hjp,
        hq2def, setPrevF_nodes_other _ nx pv j hjn,
        setNextF_nodes_other _ pv nx j hjv]
  · rw [if_neg hfc]
    refine ⟨?_, ?_, ?_, ?_, ?_⟩
    · rw [setPrevF_nodes_same, setNextF_nodes_same, setParentF_nodes_same, hq2r]
    · rw [if_neg hfc, setPrevF_nodes_other _ r 0 pa hpa_r,
        setNextF_nodes_other _ r 0 pa hpa_r, setParentF_nodes_other _ r 0 pa hpa_r,
        hq2pa]
    · intro hpveq
      rw [setPrevF_nodes_other _ r 0 nx hnx, setNextF_nodes_other _ r 0 nx hnx,
        setParentF_nodes_other _ r 0 nx hnx,
        hq2def, setPrevF_nodes_same]
      rw [← hpveq, setNextF_nodes_same]
    · intro hpvne
      constructor
      · rw [setPrevF_nodes_other _ r 0 pv hpv_r, setNextF_nodes_other _ r 0 pv hpv_r,
          setParentF_nodes_other _ r 0 pv hpv_r,
          hq2def, setPrevF_nodes_other _ nx pv pv hpvne, setNextF_nodes_same]
      · rw [setPrevF_nodes_other _ r 0 nx hnx, setNextF_nodes_other _ r 0 nx hnx,
          setParentF_nodes_other _ r 0 nx hnx,
          hq2def, setPrevF_nodes_same,
          setNextF_nodes_other _ pv nx nx (fun hcon => hpvne hcon.symm)]
    · intro j hjr hjp hjn hjv
      rw [setPrevF_nodes_other _ r 0 j hjr, setNextF_nodes_other _ r 0 j hjr,
        setParentF_nodes_other _ r 0 j hjr,
        hq2def, setPrevF_nodes_other _ nx pv j hjn,
        setNextF_nodes_other _ pv nx j hjv]

theorem specDestroyF_nil (N : Nat) (q : ThingPool T) : specDestroyF N .nil q = q := by
  simp [specDestroyF]

theorem specDestroyF_cons (N : Nat) (t : DTree) (ts : DForest) (q : ThingPool T) :
    specDestroyF N (.cons t ts) q = specDestroyF N ts (specDestroyT N t q) := by
  simp [specDestroyF]

theorem specDestroyT_eq (N r : Nat) (fs : DForest) (q q1 q2 : ThingPool T)
    (hq1 : specDestroyF N fs q = q1)
    (h2 : q2 = if (q1.nodes r).parent ≠ 0 then
            detachOp N q1 ⟨r, (q1.nodes r).generation⟩ else q1) :
    specDestroyT N (.mk r fs) q =
      { nodes := upd q2.nodes r (clearedNode T ((q2.nodes r).generation)),
        next_free := upd q2.next_free r q2.first_free,
        first_free := r } := by
  subst hq1
  subst h2
  simp [specDestroyT, clearedNode]

/-- After `specDestroyT`, the root slot itself is cleared: inactive with
all links zero. -/
theorem specDestroyT_root_inert (N : Nat) (t : DTree) (q : ThingPool T) :
    ((specDestroyT N t q).nodes t.root).is_active = false ∧
    ((specDestroyT N t q).nodes t.root).next_sibling = 0 := by
  obtain ⟨r, fs⟩ := t
  rw [specDestroyT_eq N r fs q (specDestroyF N fs q) _ rfl rfl]
  show ((upd _ r _ : Nat → Node T) (DTree.root (.mk r fs))).is_active = false ∧
    ((upd _ r _ : Nat → Node T) (DTree.root (.mk r fs))).next_sibling = 0
  rw [show DTree.root (.mk r fs) = r from rfl, upd_same]
  exact ⟨rfl, rfl⟩

theorem getLastD_ne_head (s b : Nat) (rest : List Nat) (hnd : (s :: b :: rest).Nodup) :
    (s :: b :: rest).getLastD 0 ≠ s := by
  rw [getLastD_cons_shift]
  intro hcon
  have hmem := getLastD_cons_mem rest b
  rw [hcon] at hmem
  exact (List.nodup_cons.1 hnd).1 hmem

theorem postT_last : ∀ t : DTree, (postT t).getLastD 0 = t.root
  | .mk i fs => by
    rw [show postT (.mk i fs) = postF fs ++ [i] from by simp [postT],
      show DTree.root (.mk i fs) = i from rfl]
    induction postF fs with
    | nil => rfl
    | cons a rest ih =>
      cases rest with
      | nil => rfl
      | cons b rest2 => simpa [List.getLastD_cons] using ih

/-- The ring hypotheses of the child-ring loop determine, for the first
tree of the ring, the side conditions under which its `detach` stays
outside its own subtree. -/
theorem sides_of_ring (q : ThingPool T) (t : DTree) (ts : DForest) (i : Nat)
    (hring : ringBool q i (rootsF (.cons t ts)) = true)
    (hnd : (nodesF (.cons t ts)).Nodup)
    (hi : i ∉ nodesF (.cons t ts)) :
    (q.nodes t.root).parent = i ∧
    (q.nodes t.root).parent ∉ nodesT t ∧
    DetachSides q t := by
  have hrootsEq : rootsF (.cons t ts) = t.root :: rootsF ts := by simp [rootsF]
  have hnodesEq : nodesF (.cons t ts) = nodesT t ++ nodesF ts := by simp [nodesF]
  obtain ⟨hndT, hndF, hdisj⟩ := nodup_nodesF_cons t ts hnd
  rw [hnodesEq] at hi
  simp only [List.mem_append, not_or] at hi
  have hpar : (q.nodes t.root).parent = i := by
    apply ring_parent hring
    rw [hrootsEq]
    exact List.mem_cons_self _ _
  refine ⟨hpar, by rw [hpar]; exact hi.1, ?_⟩
  cases ts with
  | nil =>
    left
    have h1 : rootsF (.cons t .nil) = [t.root] := by simp [rootsF]
    rw [h1] at hring
    exact (ring_next_single hring).1
  | cons t2 ts2 =>
    right
    have h2 : rootsF (.cons t (.cons t2 ts2)) = t.root :: t2.root :: rootsF ts2 := by
      simp [rootsF]
    rw [h2] at hring
    have hnx : (q.nodes t.root).next_sibling = t2.root := ring_next_head hring
    have hpv : (q.nodes t.root).prev_sibling
        = (t2.root :: rootsF ts2).getLastD 0 := by
      rw [ring_prev_head hring, getLastD_cons_shift]
    have hmemnx : t2.root ∈ nodesF (.cons t2 ts2) := by
      simp only [nodesF, List.mem_append]
      exact Or.inl (root_mem_nodesT t2)
    have hmempv : (t2.root :: rootsF ts2).getLastD 0 ∈ nodesF (.cons t2 ts2) := by
      apply rootsF_subset
      rw [show rootsF (.cons t2 ts2) = t2.root :: rootsF ts2 from by simp [rootsF]]
      exact getLastD_cons_mem _ _
    refine ⟨?_, ?_, ?_, ?_⟩
    · rw [hnx]
      intro hcon
      exact hdisj _ hcon hmemnx
    · rw [hpv]
      intro hcon
      exact hdisj _ hcon hmempv
    · rw [hpar, hnx]
      intro hcon
      exact hi.2 (hcon ▸ hmemnx)
    · rw [hpar, hpv]
      intro hcon
      exact hi.2 (hcon ▸ hmempv)

/-- Assembly step for the exact destroy effect on a tree: given the exact
effect of the child-ring phase (the `hG*` facts about
`q1 = specDestroyF N fs q`), carry out the root's own `detach`, clear and
free-list push. -/
theorem specT_exact_step (N r : Nat) (fs : DForest) (q q1 : ThingPool T)
    (hq1 : specDestroyF N fs q = q1)
    (hr0 : 0 < r) (hrN : r < N)
    (hpa : (q.nodes r).parent ∉ nodesT (.mk r fs))
    (hsib : DetachSides q (.mk r fs))
    (hrF : r ∉ nodesF fs)
    (hG1 : ∀ j ∈ nodesF fs, q1.nodes j = clearedNode T ((q.nodes j).generation))
    (hG2 : ∀ j, j ∉ nodesF fs → j ≠ r → q1.nodes j = q.nodes j)
    (hGr : ∃ v, q1.nodes r = { q.nodes r with first_child := v })
    (hG4 : q1.next_free = (pushAll (postF fs) q.next_free q.first_free).1 ∧
           q1.first_free = (pushAll (postF fs) q.next_free q.first_free).2) :
    DestroyTOutcome (.mk r fs) q (specDestroyT N (.mk r fs) q) := by
  have hnodesTEq : nodesT (.mk r fs) = r :: nodesF fs := by simp [nodesT]
  have hpostEq : postT (.mk r fs) = postF fs ++ [r] := by simp [postT]
  simp only [DetachSides, DTree.root] at hsib
  rw [hnodesTEq] at hpa
  simp only [List.mem_cons, not_or] at hpa
  obtain ⟨v, hGr⟩ := hGr
  have hgen1 : (q1.nodes r).generation = (q.nodes r).generation := by rw [hGr]
  have hpar1 : (q1.nodes r).parent = (q.nodes r).parent := by rw [hGr]
  have hnx1 : (q1.nodes r).next_sibling = (q.nodes r).next_sibling := by rw [hGr]
  have hpv1 : (q1.nodes r).prev_sibling = (q.nodes r).prev_sibling := by rw [hGr]
  have hq1pa : q1.nodes ((q.nodes r).parent) = q.nodes ((q.nodes r).parent) :=
    hG2 _ hpa.2 hpa.1
  unfold DestroyTOutcome
  simp only [DTree.root]
  rw [hnodesTEq, hpostEq]
  by_cases hp0 : (q.nodes r).parent = 0
  · have hcond : ¬ (q1.nodes r).parent ≠ 0 := by rw [hpar1, hp0]; simp
    have hstep := specDestroyT_eq N r fs q q1 q1 hq1 (by rw [if_neg hcond])
    rw [hstep]
    dsimp only
    refine ⟨?_, ?_, ?_, ?_, ?_, ?_, ?_⟩
    · intro j hj
      rcases List.mem_cons.1 hj with rfl | hjF
      · rw [upd_same, hgen1]
      · have hjr : j ≠ r := fun hcon => hrF (hcon ▸ hjF)
        rw [upd_other _ _ _ _ hjr]
        exact hG1 j hjF
    · intro j hjT _ _ _
      simp only [List.mem_cons, not_or] at hjT
      rw [upd_other _ _ _ _ hjT.1]
      exact hG2 j hjT.2 hjT.1
    · intro _ j hjT
      simp only [List.mem_cons, not_or] at hjT
      rw [upd_other _ _ _ _ hjT.1]
      exact hG2 j hjT.2 hjT.1
    · intro hcon _
      exact absurd hp0 hcon
    · intro hcon _
      exact absurd hp0 hcon
    · rw [pushAll_append, hG4.1, hG4.2]
      simp [pushAll]
    · rw [pushAll_append]
      simp [pushAll]
  · have hcond : (q1.nodes r).parent ≠ 0 := by rw [hpar1]; exact hp0
    have hstep := specDestroyT_eq N r fs q q1
      (detachOp N q1 ⟨r, (q1.nodes r).generation⟩) hq1 (by rw [if_pos hcond])
    have hpr1 : (q1.nodes r).parent ≠ r := by rw [hpar1]; exact hpa.1
    rcases hsib with hnxr | ⟨hnxT, hpvT, hpanx, hpapv⟩
    · -- the root is the sole member of its sibling ring
      have hnx1r : (q1.nodes r).next_sibling = r := by rw [hnx1]; exact hnxr
      obtain ⟨hD1, hD2, hD3⟩ := detachOp_effect_single N q1 r
        ((q1.nodes r).generation) hr0 hrN rfl hcond hpr1 hnx1r
      rw [hpar1] at hD2 hD3
      rw [hq1pa] at hD2
      rw [hstep]
      dsimp only
      refine ⟨?_, ?_, ?_, ?_, ?_, ?_, ?_⟩
      · intro j hj
        rcases List.mem_cons.1 hj with rfl | hjF
        · rw [upd_same, hD1]
          show clearedNode T ((q1.nodes j).generation) = _
          rw [hgen1]
        · have hjr : j ≠ r := fun hcon => hrF (hcon ▸ hjF)
          have hjpa : j ≠ (q.nodes r).parent := fun hcon => hpa.2 (hcon ▸ hjF)
          rw [upd_other _ _ _ _ hjr, hD3 j hjr hjpa]
          exact hG1 j hjF
      · intro j hjT hjpa _ _
        simp only [List.mem_cons, not_or] at hjT
        rw [upd_other _ _ _ _ hjT.1, hD3 j hjT.1 hjpa]
        exact hG2 j hjT.2 hjT.1
      · intro hcon
        exact absurd hcon hp0
      · intro _ _
        refine ⟨?_, ?_⟩
        · rw [upd_other _ _ _ _ hpa.1, hD2]
        · intro j hjT hjpa
          simp only [List.mem_cons, not_or] at hjT
          rw [upd_other _ _ _ _ hjT.1, hD3 j hjT.1 hjpa]
          exact hG2 j hjT.2 hjT.1
      · intro _ hcon
        exact absurd hnxr hcon
      · rw [(detachOp_free_eq N q1 _).1, (detachOp_free_eq N q1 _).2,
          pushAll_append, hG4.1, hG4.2]
        simp [pushAll]
      · rw [pushAll_append]
        simp [pushAll]
    · -- the root has distinct ring neighbours, all outside the subtree
      rw [hnodesTEq] at hnxT hpvT
      simp only [List.mem_cons, not_or] at hnxT hpvT
      have hnx1ne : (q1.nodes r).next_sibling ≠ r := by rw [hnx1]; exact hnxT.1
      have hpv1ne : (q1.nodes r).prev_sibling ≠ r := by rw [hpv1]; exact hpvT.1
      have hpanx1 : (q1.nodes r).parent ≠ (q1.nodes r).next_sibling := by
        rw [hpar1, hnx1]; exact hpanx
      have hpapv1 : (q1.nodes r).parent ≠ (q1.nodes r).prev_sibling := by
        rw [hpar1, hpv1]; exact hpapv
      obtain ⟨hD1, hD2, hD3, hD4, hD5⟩ := detachOp_effect_splice N q1 r
        ((q1.nodes r).generation) hr0 hrN rfl hcond hnx1ne hpv1ne hpr1 hpanx1 hpapv1
      rw [hpar1, hnx1] at hD2
      rw [hnx1, hpv1] at hD3
      rw [hnx1, hpv1] at hD4
      rw [hpar1, hnx1, hpv1] at hD5
      rw [hq1pa] at hD2
      have hq1nx : q1.nodes ((q.nodes r).next_sibling)
          = q.nodes ((q.nodes r).next_sibling) := hG2 _ hnxT.2 hnxT.1
      have hq1pv : q1.nodes ((q.nodes r).prev_sibling)
          = q.nodes ((q.nodes r).prev_sibling) := hG2 _ hpvT.2 hpvT.1
      rw [hq1nx] at hD3 hD4
      rw [hq1pv] at hD4
      rw [hstep]
      dsimp only
      refine ⟨?_, ?_, ?_, ?_, ?_, ?_, ?_⟩
      · intro j hj
        rcases List.mem_cons.1 hj with rfl | hjF
        · rw [upd_same, hD1]
          show clearedNode T ((q1.nodes j).generation) = _
          rw [hgen1]
        · have hjr : j ≠ r := fun hcon => hrF (hcon ▸ hjF)
          have hjpa : j ≠ (q.nodes r).parent := fun hcon => hpa.2 (hcon ▸ hjF)
          have hjnx : j ≠ (q.nodes r).next_sibling := fun hcon => hnxT.2 (hcon ▸ hjF)
          have hjpv : j ≠ (q.nodes r).prev_sibling := fun hcon => hpvT.2 (hcon ▸ hjF)
          rw [upd_other _ _ _ _ hjr, hD5 j hjr hjpa hjnx hjpv]
          exact hG1 j hjF
      · intro j hjT hjpa hjnx hjpv
        simp only [List.mem_cons, not_or] at hjT
        rw [upd_other _ _ _ _ hjT.1, hD5 j hjT.1 hjpa hjnx hjpv]
        exact hG2 j hjT.2 hjT.1
      · intro hcon
        exact absurd hcon hp0
      · intro _ hcon
        exact absurd hcon hnxT.1
      · intro _ _
        refine ⟨?_, ?_, ?_⟩
        · rw [upd_other _ _ _ _ hpa.1, hD2]
        · intro hpveq
          rw [upd_other _ _ _ _ hnxT.1, hD3 hpveq]
        · intro hpvne
          obtain ⟨hE1, hE2⟩ := hD4 hpvne
          constructor
          · rw [upd_other _ _ _ _ hpvT.1, hE1]
          · rw [upd_other _ _ _ _ hnxT.1, hE2]
      · rw [(detachOp_free_eq N q1 _).1, (detachOp_free_eq N q1 _).2,
          pushAll_append, hG4.1, hG4.2]
        simp [pushAll]
      · rw [pushAll_append]
        simp [pushAll]

/-- Destroying the first tree of a child ring leaves the state described
by `StepPack`: the remaining trees still match over a re-anchored ring and
only the documented slots changed. -/
theorem specF_exact_step (N : Nat) (t : DTree) (ts : DForest) (q : ThingPool T) (i : Nat)
    (hm : matchesF N q (.cons t ts) = true)
    (hring : ringBool q i (rootsF (.cons t ts)) = true)
    (hnd : (nodesF (.cons t ts)).Nodup)
    (hi : i ∉ nodesF (.cons t ts)) (hi0 : 0 < i)
    (hT : DestroyTOutcome t q (specDestroyT N t q)) :
    StepPack N t ts i q := by
  obtain ⟨hmT, hmF⟩ := matchesF_elim_cons hm
  obtain ⟨hndT, hndF, hdisj⟩ := nodup_nodesF_cons t ts hnd
  have hnodesEq : nodesF (.cons t ts) = nodesT t ++ nodesF ts := by simp [nodesF]
  have hisplit := hi
  rw [hnodesEq] at hisplit
  simp only [List.mem_append, not_or] at hisplit
  obtain ⟨hpar, hpaT, _⟩ := sides_of_ring q t ts i hring hnd hi
  obtain ⟨X1, X2, X3, X4, X5, X6⟩ := hT
  have hp0 : (q.nodes t.root).parent ≠ 0 := by rw [hpar]; omega
  unfold StepPack
  cases ts with
  | nil =>
    have hrootsEq : rootsF (.cons t .nil) = [t.root] := by simp [rootsF]
    have hring1 : ringBool q i [t.root] = true := by rw [hrootsEq] at hring; exact hring
    have hnx := (ring_next_single hring1).1
    obtain ⟨hPA, hFr⟩ := X4 hp0 hnx
    rw [hpar] at hPA hFr
    refine ⟨?_, ?_, X1, ?_, ⟨0, hPA⟩, fun _ => hPA, ?_, X6⟩
    · simp [matchesF]
    · simp [ringBool, rootsF]
    · intro j hjF hji
      rw [hnodesEq] at hjF
      simp only [List.mem_append, not_or] at hjF
      exact hFr j hjF.1 hji
    · intro j hj
      simp [nodesF] at hj
  | cons t2 ts2 =>
    have hrootsEq2 : rootsF (.cons t (.cons t2 ts2)) = t.root :: t2.root :: rootsF ts2 := by
      simp [rootsF]
    have hringL : ringBool q i (t.root :: t2.root :: rootsF ts2) = true := by
      rw [hrootsEq2] at hring; exact hring
    have hnx : (q.nodes t.root).next_sibling = t2.root := ring_next_head hringL
    have hpv : (q.nodes t.root).prev_sibling = (t2.root :: rootsF ts2).getLastD 0 := by
      rw [ring_prev_head hringL, getLastD_cons_shift]
    have hrootsTsEq : rootsF (.cons t2 ts2) = t2.root :: rootsF ts2 := by simp [rootsF]
    have hnxMemR : t2.root ∈ rootsF (.cons t2 ts2) := by
      rw [hrootsTsEq]; exact List.mem_cons_self _ _
    have hpvMemR : (t2.root :: rootsF ts2).getLastD 0 ∈ rootsF (.cons t2 ts2) := by
      rw [hrootsTsEq]; exact getLastD_cons_mem _ _
    have hnxMem : t2.root ∈ nodesF (.cons t2 ts2) := rootsF_subset _ _ hnxMemR
    have hpvMem : (t2.root :: rootsF ts2).getLastD 0 ∈ nodesF (.cons t2 ts2) :=
      rootsF_subset _ _ hpvMemR
    have hnxne : (q.nodes t.root).next_sibling ≠ t.root := by
      rw [hnx]
      intro hcon
      exact hdisj _ (root_mem_nodesT t) (hcon ▸ hnxMem)
    obtain ⟨hPA, hPVNX, hPVnNX⟩ := X5 hp0 hnxne
    rw [hpar] at hPA
    have X2' : ∀ j, j ∉ nodesT t → j ≠ i → j ≠ (q.nodes t.root).next_sibling →
        j ≠ (q.nodes t.root).prev_sibling → (specDestroyT N t q).nodes j = q.nodes j := by
      intro j h1 h2 h3 h4
      exact X2 j h1 (by rw [hpar]; exact h2) h3 h4
    have hS7 : ∀ j ∈ nodesF (.cons t2 ts2),
        ((specDestroyT N t q).nodes j).generation = (q.nodes j).generation ∧
        ((specDestroyT N t q).nodes j).is_active = (q.nodes j).is_active ∧
        ((specDestroyT N t q).nodes j).first_child = (q.nodes j).first_child ∧
        ((specDestroyT N t q).nodes j).data = (q.nodes j).data := by
      intro j hj
      have hjT : j ∉ nodesT t := fun hcon => hdisj j hcon hj
      have hji : j ≠ i := fun hcon => hisplit.2 (hcon ▸ hj)
      by_cases hjnx : j = (q.nodes t.root).next_sibling
      · by_cases hpveq : (q.nodes t.root).prev_sibling = (q.nodes t.root).next_sibling
        · rw [hjnx, hPVNX hpveq]
          exact ⟨rfl, rfl, rfl, rfl⟩
        · rw [hjnx, (hPVnNX hpveq).2]
          exact ⟨rfl, rfl, rfl, rfl⟩
      · by_cases hjpv : j = (q.nodes t.root).prev_sibling
        · by_cases hpveq : (q.nodes t.root).prev_sibling = (q.nodes t.root).next_sibling
          · exact absurd (hjpv.trans hpveq) hjnx
          · rw [hjpv, (hPVnNX hpveq).1]
            exact ⟨rfl, rfl, rfl, rfl⟩
        · rw [X2' j hjT hji hjnx hjpv]
          exact ⟨rfl, rfl, rfl, rfl⟩
    have hS1 : matchesF N (specDestroyT N t q) (.cons t2 ts2) = true := by
      have haf : ∀ j ∈ nodesF (.cons t2 ts2),
          ((specDestroyT N t q).nodes j).is_active = (q.nodes j).is_active ∧
          ((specDestroyT N t q).nodes j).first_child = (q.nodes j).first_child :=
        fun j hj => ⟨(hS7 j hj).2.1, (hS7 j hj).2.2.1⟩
      have hlk : ∀ j ∈ nodesF (.cons t2 ts2), j ∉ rootsF (.cons t2 ts2) →
          ((specDestroyT N t q).nodes j).parent = (q.nodes j).parent ∧
          ((specDestroyT N t q).nodes j).next_sibling = (q.nodes j).next_sibling ∧
          ((specDestroyT N t q).nodes j).prev_sibling = (q.nodes j).prev_sibling := by
        intro j hj hjr
        have hjnx : j ≠ (q.nodes t.root).next_sibling := by
          rw [hnx]; intro hcon; exact hjr (hcon ▸ hnxMemR)
        have hjpv : j ≠ (q.nodes t.root).prev_sibling := by
          rw [hpv]; intro hcon; exact hjr (hcon ▸ hpvMemR)
        have hjT : j ∉ nodesT t := fun hcon => hdisj j hcon hj
        have hji : j ≠ i := fun hcon => hisplit.2 (hcon ▸ hj)
        rw [X2' j hjT hji hjnx hjpv]
        exact ⟨rfl, rfl, rfl⟩
      rw [matchesF_congr (.cons t2 ts2) N q (specDestroyT N t q) hndF haf hlk]
      exact hmF
    have hS2 : ringBool (specDestroyT N t q) i (rootsF (.cons t2 ts2)) = true := by
      rw [hrootsTsEq]
      rcases hr2eq : rootsF ts2 with _ | ⟨r3, rest3⟩
      · have hpv1 : (q.nodes t.root).prev_sibling = t2.root := by
          rw [hpv, hr2eq]
          simp [List.getLastD]
        have hpveq : (q.nodes t.root).prev_sibling = (q.nodes t.root).next_sibling := by
          rw [hpv1, hnx]
        have hrec := hPVNX hpveq
        rw [hnx] at hrec
        apply ringBool_single_intro
        · rw [hrec]
        · rw [hrec]; exact hpv1
        · rw [hrec]
          show (q.nodes t2.root).parent = i
          apply ring_parent hringL
          exact List.mem_cons_of_mem _ (List.mem_cons_self _ _)
      · have hpvlast : (q.nodes t.root).prev_sibling
            = (t2.root :: r3 :: rest3).getLastD 0 := by
          rw [hpv, hr2eq]
        have hndroots : (t2.root :: r3 :: rest3).Nodup := by
          have h := rootsF_nodup (.cons t2 ts2) hndF
          rw [hrootsTsEq, hr2eq] at h
          exact h
        have hpvne_nx : (q.nodes t.root).prev_sibling ≠ (q.nodes t.root).next_sibling := by
          rw [hpvlast, hnx]
          exact getLastD_ne_head t2.root r3 rest3 hndroots
        obtain ⟨hrecPV, hrecNX⟩ := hPVnNX hpvne_nx
        rw [hnx] at hrecNX
        rw [hpvlast] at hrecPV
        rw [hr2eq] at hringL
        apply ring_reanchor q (specDestroyT N t q) i t.root t2.root (r3 :: rest3) hringL
          (List.nodup_cons.2 ⟨(List.nodup_cons.1 hndroots).1, (List.nodup_cons.1 hndroots).2⟩)
        · rw [hrecNX]
          show (q.nodes t.root).prev_sibling = (t2.root :: r3 :: rest3).getLastD 0
          exact hpvlast
        · rw [hrecNX]
        · rw [hrecNX]
        · rw [hrecPV]
          exact hnx
        · rw [hrecPV]
        · rw [hrecPV]
        · intro x hx hxs hxl
          have hxRoots : x ∈ rootsF (.cons t2 ts2) := by
            rw [hrootsTsEq, hr2eq]; exact hx
          have hxMem : x ∈ nodesF (.cons t2 ts2) := rootsF_subset _ _ hxRoots
          have hxT : x ∉ nodesT t := fun hcon => hdisj x hcon hxMem
          have hxi : x ≠ i := fun hcon => hisplit.2 (hcon ▸ hxMem)
          have hxnx : x ≠ (q.nodes t.root).next_sibling := by rw [hnx]; exact hxs
          have hxpv : x ≠ (q.nodes t.root).prev_sibling := by rw [hpvlast]; exact hxl
          exact X2' x hxT hxi hxnx hxpv
    refine ⟨hS1, hS2, X1, ?_, ⟨_, hPA⟩, ?_, hS7, X6⟩
    · intro j hjF hji
      rw [hnodesEq] at hjF
      simp only [List.mem_append, not_or] at hjF
      have hjnx : j ≠ (q.nodes t.root).next_sibling := by
        rw [hnx]; intro hcon; exact hjF.2 (hcon ▸ hnxMem)
      have hjpv : j ≠ (q.nodes t.root).prev_sibling := by
        rw [hpv]; intro hcon; exact hjF.2 (hcon ▸ hpvMem)
      exact X2' j hjF.1 hji hjnx hjpv
    · intro hcon
      exact DForest.noConfusion hcon

theorem stepPack_outcome_nil (N : Nat) (t : DTree) (q : ThingPool T) (i : Nat)
    (hpack : StepPack N t .nil i q) :
    DestroyFOutcome (.cons t .nil) i q (specDestroyF N (.cons t .nil) q) := by
  obtain ⟨_, _, S3, S4, _, S5b, _, S8⟩ := hpack
  have hq' : specDestroyF N (.cons t .nil) q = specDestroyT N t q := by
    rw [specDestroyF_cons, specDestroyF_nil]
  have hnodesEq : nodesF (.cons t .nil) = nodesT t := by simp [nodesF]
  have hpostEq : postF (.cons t .nil) = postT t := by simp [postF]
  unfold DestroyFOutcome
  rw [hq', hnodesEq, hpostEq]
  exact ⟨S3, fun j hj hji => S4 j (by rw [hnodesEq]; exact hj) hji, S5b rfl, S8⟩

theorem stepPack_outcome_cons (N : Nat) (t : DTree) (ts : DForest) (q : ThingPool T)
    (i : Nat) (hnd : (nodesF (.cons t ts)).Nodup) (hi : i ∉ nodesF (.cons t ts))
    (hpack : StepPack N t ts i q)
    (hF : DestroyFOutcome ts i (specDestroyT N t q)
      (specDestroyF N ts (specDestroyT N t q))) :
    DestroyFOutcome (.cons t ts) i q (specDestroyF N (.cons t ts) q) := by
  obtain ⟨_, _, S3, S4, ⟨w, S5a⟩, _, S7, S8⟩ := hpack
  obtain ⟨F1, F2, F3, F4⟩ := hF
  obtain ⟨hndT, hndF, hdisj⟩ := nodup_nodesF_cons t ts hnd
  have hnodesEq : nodesF (.cons t ts) = nodesT t ++ nodesF ts := by simp [nodesF]
  have hpostEq : postF (.cons t ts) = postT t ++ postF ts := by simp [postF]
  have hiT : i ∉ nodesT t := by
    intro hcon
    exact hi (by rw [hnodesEq]; exact List.mem_append.2 (Or.inl hcon))
  unfold DestroyFOutcome
  rw [specDestroyF_cons, hnodesEq, hpostEq]
  refine ⟨?_, ?_, ?_, ?_⟩
  · intro j hj
    rcases List.mem_append.1 hj with hjT | hjF2
    · have hjFts : j ∉ nodesF ts := hdisj j hjT
      have hji : j ≠ i := fun hcon => hiT (hcon ▸ hjT)
      rw [F2 j hjFts hji]
      exact S3 j hjT
    · rw [F1 j hjF2, (S7 j hjF2).1]
  · intro j hj hji
    simp only [List.mem_append, not_or] at hj
    rw [F2 j hj.2 hji]
    exact S4 j (by rw [hnodesEq]; simp only [List.mem_append, not_or]; exact hj) hji
  · rw [F3, S5a]
  · constructor
    · rw [F4.1, S8.1, S8.2, pushAll_append]
    · rw [F4.2, S8.1, S8.2, pushAll_append]

mutual
theorem specT_exact : ∀ (t : DTree) (N : Nat) (q : ThingPool T),
    matchesT N q t = true → (nodesT t).Nodup →
    (q.nodes t.root).parent ∉ nodesT t →
    DetachSides q t →
    DestroyTOutcome t q (specDestroyT N t q)
  | .mk r fs, N, q, hm, hnd, hpa, hsib => by
    obtain ⟨hrF, hndF⟩ := nodup_nodesT_mk r fs hnd
    have hroots := matchesT_root_facts (.mk r fs) N q hm
    have hr0 : 0 < r := hroots.1
    have hrN : r < N := hroots.2.1
    cases fs with
    | nil =>
      apply specT_exact_step N r .nil q q (specDestroyF_nil N q) hr0 hrN hpa hsib hrF
      · intro j hj
        simp [nodesF] at hj
      · intro j _ _
        rfl
      · exact ⟨(q.nodes r).first_child, rfl⟩
      · exact ⟨rfl, rfl⟩
    | cons t ts =>
      obtain ⟨_, _, _, _, hring, hmF⟩ := matchesT_elim_cons hm
      have hF := specF_exact (.cons t ts) N q r
        (fun hcon => DForest.noConfusion hcon) hmF hring hndF hrF hr0
      obtain ⟨E1, E2, E3, E4⟩ := hF
      exact specT_exact_step N r (.cons t ts) q _ rfl hr0 hrN hpa hsib hrF E1 E2 ⟨0, E3⟩ E4
theorem specF_exact : ∀ (fs : DForest) (N : Nat) (q : ThingPool T) (i : Nat),
    fs ≠ .nil → matchesF N q fs = true → ringBool q i (rootsF fs) = true →
    (nodesF fs).Nodup → i ∉ nodesF fs → 0 < i →
    DestroyFOutcome fs i q (specDestroyF N fs q)
  | .nil, _, _, _, hne, _, _, _, _, _ => absurd rfl hne
  | .cons t ts, N, q, i, _, hm, hring, hnd, hi, hi0 => by
    obtain ⟨hmT, hmF⟩ := matchesF_elim_cons hm
    obtain ⟨hndT, hndF, hdisj⟩ := nodup_nodesF_cons t ts hnd
    obtain ⟨hpar, hpaT, hsides⟩ := sides_of_ring q t ts i hring hnd hi
    have hT := specT_exact t N q hmT hndT hpaT hsides
    have hpack := specF_exact_step N t ts q i hm hring hnd hi hi0 hT
    cases ts with
    | nil => exact stepPack_outcome_nil N t q i hpack
    | cons t2 ts2 =>
      have hiF : i ∉ nodesF (.cons t2 ts2) := by
        intro hcon
        apply hi
        rw [show nodesF (.cons t (.cons t2 ts2))
          = nodesT t ++ nodesF (.cons t2 ts2) from by simp [nodesF]]
        exact List.mem_append.2 (Or.inr hcon)
      have hF2 := specF_exact (.cons t2 ts2) N (specDestroyT N t q) i
        (fun hcon => DForest.noConfusion hcon) hpack.1 hpack.2.1 hndF hiF hi0
      exact stepPack_outcome_cons N t (.cons t2 ts2) q i hnd hi hpack hF2
end

mutual
theorem tfFuel_le : ∀ t : DTree, tfFuel t ≤ 3 * sizeT t
  | .mk i fs => by
    have h := lfFuel_le fs
    simp only [tfFuel, sizeT]
    omega
theorem lfFuel_le : ∀ fs : DForest, lfFuel fs ≤ 3 * sizeF fs + 2
  | .nil => by simp [lfFuel, sizeF]
  | .cons t ts => by
    have h1 := tfFuel_le t
    have h2 := lfFuel_le ts
    have h3 := sizeT_pos t
    simp only [lfFuel, sizeF]
    omega
end

/-- A matching, duplicate-free tree has at most `N` nodes: its node list
is a duplicate-free sublist of `0, …, N-1`. -/
theorem sizeT_le_of_matches (t : DTree) (N : Nat) (q : ThingPool T)
    (hm : matchesT N q t = true) (hnd : (nodesT t).Nodup) : sizeT t ≤ N := by
  have hsub : nodesT t ⊆ List.range N := by
    intro j hj
    rw [List.mem_range]
    exact (matches_bounds_T t N q hm j hj).2
  have h := (hnd.subperm hsub).length_le
  rw [nodesT_length, List.length_range] at h
  exact h

/-- The `StepPack` facts, obtained directly from the ring hypotheses of
the child loop (wrapper around `specT_exact` and `specF_exact_step`). -/
theorem loop_step_pack (N : Nat) (t : DTree) (ts : DForest) (q : ThingPool T) (i : Nat)
    (hm : matchesF N q (.cons t ts) = true)
    (hring : ringBool q i (rootsF (.cons t ts)) = true)
    (hnd : (nodesF (.cons t ts)).Nodup)
    (hi : i ∉ nodesF (.cons t ts)) (hi0 : 0 < i) :
    StepPack N t ts i q := by
  obtain ⟨hmT, _⟩ := matchesF_elim_cons hm
  obtain ⟨hndT, _, _⟩ := nodup_nodesF_cons t ts hnd
  obtain ⟨_, hpaT, hsides⟩ := sides_of_ring q t ts i hring hnd hi
  exact specF_exact_step N t ts q i hm hring hnd hi hi0
    (specT_exact t N q hmT hndT hpaT hsides)

mutual
theorem destroyRec_equiv : ∀ (t : DTree) (N fuel : Nat) (q : ThingPool T),
    tfFuel t ≤ fuel → matchesT N q t = true → (nodesT t).Nodup →
    destroyRec N fuel q t.root = some (specDestroyT N t q)
  | .mk r fs, N, fuel, q, hfuel, hm, hnd => by
    obtain ⟨hrF, hndF⟩ := nodup_nodesT_mk r fs hnd
    have hroots := matchesT_root_facts (.mk r fs) N q hm
    have hact : (q.nodes r).is_active = true := hroots.2.2
    have hfuel' : 1 + lfFuel fs ≤ fuel := by
      simpa only [tfFuel] using hfuel
    obtain ⟨f, rfl⟩ : ∃ f, fuel = f + 1 := ⟨fuel - 1, by omega⟩
    have hrooteq : (DTree.mk r fs).root = r := rfl
    rw [hrooteq]
    rw [destroyRec, if_neg (by simp [hact])]
    cases fs with
    | nil =>
      obtain ⟨_, _, _, hfc⟩ := matchesT_elim_nil hm
      rw [hfc, if_neg (by simp)]
      rw [specDestroyT_eq N r .nil q q _ (specDestroyF_nil N q) rfl]
      rfl
    | cons t ts =>
      obtain ⟨_, _, _, hfc, hring, hmF⟩ := matchesT_elim_cons hm
      have hfc0 : t.root ≠ 0 := by
        have := (matchesT_root_facts t N q (matchesF_elim_cons hmF).1).1
        omega
      have hloop := destroyLoop_equiv (.cons t ts) N f q r t.root
        (fun hcon => DForest.noConfusion hcon) (by omega) hmF hring hndF hrF
        (by omega) (Or.inl (by simp [rootsF]))
      rw [show (rootsF (.cons t ts)).headD 0 = t.root from by simp [rootsF]] at hloop
      rw [hfc, if_pos hfc0, hloop]
      rw [specDestroyT_eq N r (.cons t ts) q (specDestroyF N (.cons t ts) q) _ rfl rfl]
      rfl
theorem destroyLoop_equiv : ∀ (fs : DForest) (N fuel : Nat) (q : ThingPool T)
    (i first : Nat),
    fs ≠ .nil → lfFuel fs ≤ fuel →
    matchesF N q fs = true → ringBool q i (rootsF fs) = true →
    (nodesF fs).Nodup → i ∉ nodesF fs → 0 < i →
    (first = (rootsF fs).headD 0 ∨ (first ∉ nodesF fs ∧ 0 < first)) →
    destroyLoop N fuel q ((rootsF fs).headD 0) first = some (specDestroyF N fs q)
  | .nil, _, _, _, _, _, hne, _, _, _, _, _, _, _ => absurd rfl hne
  | .cons t ts, N, fuel, q, i, first, _, hfuel, hm, hring, hnd, hi, hi0, hfirst => by
    obtain ⟨hmT, hmF⟩ := matchesF_elim_cons hm
    obtain ⟨hndT, hndF, hdisj⟩ := nodup_nodesF_cons t ts hnd
    have hrootT := matchesT_root_facts t N q hmT
    have hfuel' : 1 + max (tfFuel t) (max (lfFuel ts) 2) ≤ fuel := by
      simpa only [lfFuel] using hfuel
    obtain ⟨f, rfl⟩ : ∃ f, fuel = f + 1 := ⟨fuel - 1, by omega⟩
    have htf : tfFuel t ≤ f := by omega
    have hlf : lfFuel ts ≤ f := by omega
    have h2f : 2 ≤ f := by omega
    have hhead : (rootsF (.cons t ts)).headD 0 = t.root := by simp [rootsF]
    rw [hhead]
    have hrec := destroyRec_equiv t N f q htf hmT hndT
    have h1 : destroyLoop N (f + 1) q t.root first =
        (if (q.nodes t.root).next_sibling ≠ 0 ∧ (q.nodes t.root).next_sibling ≠ first
         then destroyLoop N f (specDestroyT N t q) ((q.nodes t.root).next_sibling) first
         else some (specDestroyT N t q)) := by
      rw [destroyLoop, hrec]
    rw [h1]
    cases ts with
    | nil =>
      have hrootsEq : rootsF (.cons t .nil) = [t.root] := by simp [rootsF]
      have hring1 : ringBool q i [t.root] = true := by rw [hrootsEq] at hring; exact hring
      have hnx := (ring_next_single hring1).1
      rw [hnx]
      rcases hfirst with hf1 | ⟨hf2, hf0⟩
      · rw [hhead] at hf1
        subst hf1
        rw [if_neg (by simp)]
        rw [specDestroyF_cons, specDestroyF_nil]
      · have hfne : t.root ≠ first := by
          intro hcon
          apply hf2
          rw [show nodesF (.cons t .nil) = nodesT t ++ nodesF .nil from by simp [nodesF]]
          exact List.mem_append.2 (Or.inl (hcon ▸ root_mem_nodesT t))
        rw [if_pos ⟨by omega, hfne⟩]
        obtain ⟨f3, rfl⟩ : ∃ f3, f = f3 + 1 + 1 := ⟨f - 2, by omega⟩
        have hinert := specDestroyT_root_inert N t q
        have h2 : destroyLoop N (f3 + 1 + 1) (specDestroyT N t q) t.root first =
            (if ((specDestroyT N t q).nodes t.root).next_sibling ≠ 0 ∧
                ((specDestroyT N t q).nodes t.root).next_sibling ≠ first
             then destroyLoop N (f3 + 1) (specDestroyT N t q)
                    (((specDestroyT N t q).nodes t.root).next_sibling) first
             else some (specDestroyT N t q)) := by
          rw [destroyLoop, destroyRec, if_pos hinert.1]
        rw [h2, hinert.2, if_neg (by simp)]
        rw [specDestroyF_cons, specDestroyF_nil]
    | cons t2 ts2 =>
      have hrootsEq2 : rootsF (.cons t (.cons t2 ts2)) = t.root :: t2.root :: rootsF ts2 := by
        simp [rootsF]
      have hringL : ringBool q i (t.root :: t2.root :: rootsF ts2) = true := by
        rw [hrootsEq2] at hring; exact hring
      have hnx : (q.nodes t.root).next_sibling = t2.root := ring_next_head hringL
      have hnodesEq : nodesF (.cons t (.cons t2 ts2))
          = nodesT t ++ nodesF (.cons t2 ts2) := by simp [nodesF]
      have ht2mem : t2.root ∈ nodesF (.cons t2 ts2) := by
        rw [show nodesF (.cons t2 ts2) = nodesT t2 ++ nodesF ts2 from by simp [nodesF]]
        exact List.mem_append.2 (Or.inl (root_mem_nodesT t2))
      have ht2root := matchesT_root_facts t2 N q (matchesF_elim_cons hmF).1
      have ht2ne : t2.root ≠ first := by
        rcases hfirst with hf1 | ⟨hf2, _⟩
        · rw [hhead] at hf1
          subst hf1
          intro hcon
          exact hdisj _ (root_mem_nodesT t) (hcon ▸ ht2mem)
        · intro hcon
          apply hf2
          rw [hnodesEq]
          exact List.mem_append.2 (Or.inr (hcon ▸ ht2mem))
      rw [hnx, if_pos ⟨by omega, ht2ne⟩]
      have hiF : i ∉ nodesF (.cons t2 ts2) := by
        intro hcon
        apply hi
        rw [hnodesEq]
        exact List.mem_append.2 (Or.inr hcon)
      have hpack := loop_step_pack N t (.cons t2 ts2) q i hm hring hnd hi hi0
      have hfirst2 : first = (rootsF (.cons t2 ts2)).headD 0 ∨
          (first ∉ nodesF (.cons t2 ts2) ∧ 0 < first) := by
        right
        rcases hfirst with hf1 | ⟨hf2, hf0⟩
        · rw [hhead] at hf1
          subst hf1
          refine ⟨fun hcon => hdisj _ (root_mem_nodesT t) hcon, ?_⟩
          omega
        · refine ⟨fun hcon => hf2 ?_, hf0⟩
          rw [hnodesEq]
          exact List.mem_append.2 (Or.inr hcon)
      have hIH := destroyLoop_equiv (.cons t2 ts2) N f (specDestroyT N t q) i first
        (fun hcon => DForest.noConfusion hcon) hlf hpack.1 hpack.2.1 hndF hiF hi0 hfirst2
      rw [show (rootsF (.cons t2 ts2)).headD 0 = t2.root from by simp [rootsF]] at hIH
      rw [hIH, specDestroyF_cons N t (.cons t2 ts2) q,
        specDestroyF_cons N t2 ts2 (specDestroyT N t q)]
end

/-- `destroy` on a handle that denotes the root of a realised,
duplicate-free tree runs the recursion to completion (the fuel
`3 * N + 3` suffices) and produces exactly the `specDestroyT` state. -/
theorem destroyOp_spec (N : Nat) (q : ThingPool T) (t : DTree) (ref : ThingRef)
    (hm : matchesT N q t = true) (hnd : (nodesT t).Nodup)
    (hidx : ref.index = t.root) (hgen : ref.generation = (q.nodes t.root).generation) :
    destroyOp N q ref = some (specDestroyT N t q) := by
  have hroots := matchesT_root_facts t N q hm
  have hvalid : isValid N q ref = true := by
    rw [isValid_eq_true_iff, hidx, hgen]
    exact ⟨hroots.1, hroots.2.1, hroots.2.2, rfl⟩
  rw [destroyOp, if_neg (by rw [hvalid]; simp), hidx]
  apply destroyRec_equiv t N (destroyFuel N) q ?_ hm hnd
  have h1 := tfFuel_le t
  have h2 := sizeT_le_of_matches t N q hm hnd
  rw [destroyFuel]
  omega

/-- The slot pushed first on the free list keeps the old head as its
`next_free` entry, provided it is not pushed again later. -/
theorem pushAll_head_entry (b : Nat) (r2 : List Nat) (nf : Nat → Nat) (ff : Nat)
    (hb : b ∉ r2) : (pushAll (b :: r2) nf ff).1 b = ff := by
  rw [pushAll, pushAll_nf_not_mem r2 _ _ b hb, upd_same]

/-- The free-list head after pushing a non-empty list is its last
element. -/
theorem pushAll_last : ∀ (L : List Nat) (nf : Nat → Nat) (ff : Nat), L ≠ [] →
    (pushAll L nf ff).2 = L.getLastD 0
  | [], _, _, hne => absurd rfl hne
  | a :: rest, nf, ff, _ => by
    cases rest with
    | nil => simp [pushAll, List.getLastD]
    | cons b r2 =>
      rw [pushAll, pushAll_last (b :: r2) _ a (fun hcon => List.noConfusion hcon),
        getLastD_cons_shift]

/-- LIFO chaining: after pushing the duplicate-free list `L`, each pushed
slot's `next_free` entry is its predecessor in `L`. -/
theorem pushAll_chain : ∀ (L : List Nat) (nf : Nat → Nat) (ff : Nat), L.Nodup →
    ∀ k, (hk : k + 1 < L.length) →
      (pushAll L nf ff).1 (L.get ⟨k + 1, hk⟩) = L.get ⟨k, Nat.lt_of_succ_lt hk⟩
  | [], _, _, _, k, hk => by simp at hk
  | a :: rest, nf, ff, hnd, k, hk => by
    rw [pushAll]
    cases k with
    | zero =>
      cases rest with
      | nil => simp at hk
      | cons b r2 =>
        show (pushAll (b :: r2) (upd nf a ff) a).1 b = a
        exact pushAll_head_entry b r2 _ a (List.nodup_cons.1 (List.nodup_cons.1 hnd).2).1
    | succ k2 =>
      have hk2 : k2 + 1 < rest.length := by
        simpa using hk
      have := pushAll_chain rest (upd nf a ff) a (List.nodup_cons.1 hnd).2 k2 hk2
      simpa using this

mutual
theorem subtree_decomp_T : ∀ (t : DTree), ∀ s ∈ subtreesT t,
    ∃ A B, postT t = A ++ (postT s ++ B)
  | .mk i fs, s, hs => by
    rw [show subtreesT (.mk i fs) = .mk i fs :: subtreesF fs from by simp [subtreesT]] at hs
    rcases List.mem_cons.1 hs with rfl | hs2
    · exact ⟨[], [], by simp⟩
    · obtain ⟨A, B, hAB⟩ := subtree_decomp_F fs s hs2
      refine ⟨A, B ++ [i], ?_⟩
      rw [show postT (.mk i fs) = postF fs ++ [i] from by simp [postT], hAB]
      simp
theorem subtree_decomp_F : ∀ (fs : DForest), ∀ s ∈ subtreesF fs,
    ∃ A B, postF fs = A ++ (postT s ++ B)
  | .cons t ts, s, hs => by
    rw [show subtreesF (.cons t ts) = subtreesT t ++ subtreesF ts from by
      simp [subtreesF]] at hs
    rcases List.mem_append.1 hs with hs2 | hs2
    · obtain ⟨A, B, hAB⟩ := subtree_decomp_T t s hs2
      refine ⟨A, B ++ postF ts, ?_⟩
      rw [show postF (.cons t ts) = postT t ++ postF ts from by simp [postF], hAB]
      simp
    · obtain ⟨A, B, hAB⟩ := subtree_decomp_F ts s hs2
      refine ⟨postT t ++ A, B, ?_⟩
      rw [show postF (.cons t ts) = postT t ++ postF ts from by simp [postF], hAB]
      simp
end

mutual
theorem postT_perm : ∀ t : DTree, (postT t).Perm (nodesT t)
  | .mk i fs => by
    rw [show postT (.mk i fs) = postF fs ++ [i] from by simp [postT],
      show nodesT (.mk i fs) = i :: nodesF fs from by simp [nodesT]]
    exact (List.perm_append_singleton i (postF fs)).trans ((postF_perm fs).cons i)
theorem postF_perm : ∀ fs : DForest, (postF fs).Perm (nodesF fs)
  | .nil => by simp [postF, nodesF]
  | .cons t ts => by
    rw [show postF (.cons t ts) = postT t ++ postF ts from by simp [postF],
      show nodesF (.cons t ts) = nodesT t ++ nodesF ts from by simp [nodesF]]
    exact (postT_perm t).append (postF_perm ts)
end

theorem postT_ne_nil : ∀ t : DTree, postT t ≠ []
  | .mk i fs => by
    rw [show postT (.mk i fs) = postF fs ++ [i] from by simp [postT]]
    simp

/-- Weak effect of destroying a realised subtree, with no side condition
on where the root's parent and ring neighbours live: every subtree slot
ends inactive with generation preserved and default payload, every other
slot keeps its activity, generation and payload (only link fields may
move), and the free-list gains the post-order listing of the subtree. -/
theorem specT_weak (N : Nat) (t : DTree) (q : ThingPool T)
    (hm : matchesT N q t = true) (hnd : (nodesT t).Nodup) :
    (∀ j ∈ nodesT t,
       ((specDestroyT N t q).nodes j).is_active = false ∧
       ((specDestroyT N t q).nodes j).generation = (q.nodes j).generation ∧
       ((specDestroyT N t q).nodes j).data = (default : T)) ∧
    (∀ j, j ∉ nodesT t →
       ((specDestroyT N t q).nodes j).is_active = (q.nodes j).is_active ∧
       ((specDestroyT N t q).nodes j).generation = (q.nodes j).generation ∧
       ((specDestroyT N t q).nodes j).data = (q.nodes j).data) ∧
    ((specDestroyT N t q).next_free = (pushAll (postT t) q.next_free q.first_free).1 ∧
     (specDestroyT N t q).first_free = (pushAll (postT t) q.next_free q.first_free).2) := by
  obtain ⟨r, fs⟩ := t
  obtain ⟨hrF, hndF⟩ := nodup_nodesT_mk r fs hnd
  have hroots := matchesT_root_facts (.mk r fs) N q hm
  have hr0 : 0 < r := hroots.1
  have hnodesTEq : nodesT (.mk r fs) = r :: nodesF fs := by simp [nodesT]
  have hpostEq : postT (.mk r fs) = postF fs ++ [r] := by simp [postT]
  have hGs : (∀ j ∈ nodesF fs,
        (specDestroyF N fs q).nodes j = clearedNode T ((q.nodes j).generation)) ∧
      (∀ j, j ∉ nodesF fs → j ≠ r → (specDestroyF N fs q).nodes j = q.nodes j) ∧
      (∃ v, (specDestroyF N fs q).nodes r = { q.nodes r with first_child := v }) ∧
      ((specDestroyF N fs q).next_free = (pushAll (postF fs) q.next_free q.first_free).1 ∧
       (specDestroyF N fs q).first_free
         = (pushAll (postF fs) q.next_free q.first_free).2) := by
    cases fs with
    | nil =>
      rw [specDestroyF_nil]
      refine ⟨?_, fun j _ _ => rfl, ⟨(q.nodes r).first_child, rfl⟩, ?_, ?_⟩
      · intro j hj
        simp [nodesF] at hj
      · simp [postF, pushAll]
      · simp [postF, pushAll]
    | cons t1 ts1 =>
      obtain ⟨_, _, _, _, hring, hmF⟩ := matchesT_elim_cons hm
      obtain ⟨E1, E2, E3, E4⟩ := specF_exact (.cons t1 ts1) N q r
        (fun hcon => DForest.noConfusion hcon) hmF hring hndF hrF hr0
      exact ⟨E1, E2, ⟨0, E3⟩, E4⟩
  obtain ⟨hG1, hG2, ⟨v, hGr⟩, hG4⟩ := hGs
  have hgen1 : ((specDestroyF N fs q).nodes r).generation = (q.nodes r).generation := by
    rw [hGr]
  set q2 := if ((specDestroyF N fs q).nodes r).parent ≠ 0 then
      detachOp N (specDestroyF N fs q) ⟨r, ((specDestroyF N fs q).nodes r).generation⟩
    else (specDestroyF N fs q) with hq2def
  have hstep := specDestroyT_eq N r fs q (specDestroyF N fs q) q2 rfl hq2def
  have hLO : LinkOnly (specDestroyF N fs q) q2 := by
    rw [hq2def]
    split
    · exact linkOnly_detachOp N _ _
    · exact linkOnly_refl _
  have hfree : q2.next_free = (specDestroyF N fs q).next_free ∧
      q2.first_free = (specDestroyF N fs q).first_free := by
    rw [hq2def]
    split
    · exact ⟨(detachOp_free_eq N _ _).1, (detachOp_free_eq N _ _).2⟩
    · exact ⟨rfl, rfl⟩
  rw [hstep, hnodesTEq, hpostEq]
  dsimp only
  refine ⟨?_, ?_, ?_, ?_⟩
  · intro j hj
    rcases List.mem_cons.1 hj with rfl | hjF
    · rw [upd_same]
      exact ⟨rfl, (hLO j).1.trans hgen1, rfl⟩
    · have hjr : j ≠ r := fun hcon => hrF (hcon ▸ hjF)
      rw [upd_other _ _ _ _ hjr]
      refine ⟨?_, ?_, ?_⟩
      · rw [(hLO j).2.1, hG1 j hjF]
        rfl
      · rw [(hLO j).1, hG1 j hjF]
        rfl
      · rw [(hLO j).2.2, hG1 j hjF]
        rfl
  · intro j hjT
    simp only [List.mem_cons, not_or] at hjT
    rw [upd_other _ _ _ _ hjT.1]
    refine ⟨?_, ?_, ?_⟩
    · rw [(hLO j).2.1, hG2 j hjT.2 hjT.1]
    · rw [(hLO j).1, hG2 j hjT.2 hjT.1]
    · rw [(hLO j).2.2, hG2 j hjT.2 hjT.1]
  · rw [hfree.1, hfree.2, hG4.1, hG4.2, pushAll_append]
    simp [pushAll]
  · rw [pushAll_append]
    simp [pushAll]

/-- C2: `destroy` on a valid handle whose slot heads the realised subtree
`t` succeeds, renders every slot of `t` invalid for every generation,
leaves validity and payload of every slot outside `t` unchanged, and frees
the subtree's slots in depth-first post-order. -/
theorem destroy_recursive_subtree_spec (N : Nat) (q : ThingPool T) (t : DTree)
    (ref : ThingRef) (hm : matchesT N q t = true) (hnd : (nodesT t).Nodup)
    (hidx : ref.index = t.root) (hgen : ref.generation = (q.nodes t.root).generation) :
    isValid N q ref = true ∧
    destroyOp N q ref = some (specDestroyT N t q) ∧
    (∀ j ∈ nodesT t, ∀ g : Nat, isValid N (specDestroyT N t q) ⟨j, g⟩ = false) ∧
    (∀ j, j ∉ nodesT t →
       (∀ g : Nat, isValid N (specDestroyT N t q) ⟨j, g⟩ = isValid N q ⟨j, g⟩) ∧
       ((specDestroyT N t q).nodes j).data = (q.nodes j).data) ∧
    ((specDestroyT N t q).next_free = (pushAll (postT t) q.next_free q.first_free).1 ∧
     (specDestroyT N t q).first_free = (pushAll (postT t) q.next_free q.first_free).2) := by
  obtain ⟨W1, W2, W3⟩ := specT_weak N t q hm hnd
  have hroots := matchesT_root_facts t N q hm
  have hvalid : isValid N q ref = true := by
    rw [isValid_eq_true_iff, hidx, hgen]
    exact ⟨hroots.1, hroots.2.1, hroots.2.2, rfl⟩
  refine ⟨hvalid, destroyOp_spec N q t ref hm hnd hidx hgen, ?_, ?_, W3⟩
  · intro j hj g
    have hact := (W1 j hj).1
    simp [isValid, hact]
  · intro j hj
    obtain ⟨ha, hg, hd⟩ := W2 j hj
    refine ⟨?_, hd⟩
    intro g
    simp [isValid, ha, hg]

/-- C2 witness: concrete capacity-4 pool, root slot 1 with child slot 2. -/
theorem destroy_recursive_subtree_spec_witness :
    matchesT 4 pairPool pairTree = true ∧ (nodesT pairTree).Nodup ∧
    destroyOp 4 pairPool ⟨1, 1⟩ = some (specDestroyT 4 pairTree pairPool) :=
  ⟨by decide, by decide,
    (destroy_recursive_subtree_spec 4 pairPool pairTree ⟨1, 1⟩ (by decide) (by decide)
      (by decide) (by decide)).2.1⟩

/-- C8: during `destroy` of a valid handle, slots are pushed onto the
free-list in depth-first post-order — each subtree's root strictly after
all of that subtree's other slots — and the pushes form a LIFO chain whose
head is the destroyed root, the last slot visited; free-list entries of
slots outside the subtree are untouched. -/
theorem destroy_free_list_lifo (N : Nat) (q : ThingPool T) (t : DTree)
    (ref : ThingRef) (hm : matchesT N q t = true) (hnd : (nodesT t).Nodup)
    (hidx : ref.index = t.root) (hgen : ref.generation = (q.nodes t.root).generation) :
    destroyOp N q ref = some (specDestroyT N t q) ∧
    (specDestroyT N t q).first_free = t.root ∧
    ((postT t).getLastD 0 = t.root ∧
      ∀ s ∈ subtreesT t, ∃ A B, postT t = A ++ (postT s ++ B) ∧
        (postT s).getLastD 0 = s.root ∧ (∀ j, j ∈ postT s ↔ j ∈ nodesT s)) ∧
    (∀ k, ∀ hk : k + 1 < (postT t).length,
       (specDestroyT N t q).next_free ((postT t).get ⟨k + 1, hk⟩)
         = (postT t).get ⟨k, Nat.lt_of_succ_lt hk⟩) ∧
    ((postT t) ≠ [] →
       (specDestroyT N t q).next_free ((postT t).headD 0) = q.first_free) ∧
    (∀ j, j ∉ nodesT t → (specDestroyT N t q).next_free j = q.next_free j) := by
  obtain ⟨_, _, W3⟩ := specT_weak N t q hm hnd
  have hndpost : (postT t).Nodup := ((postT_perm t).nodup_iff).2 hnd
  refine ⟨destroyOp_spec N q t ref hm hnd hidx hgen, ?_, ⟨postT_last t, ?_⟩, ?_, ?_, ?_⟩
  · rw [W3.2, pushAll_last (postT t) _ _ (postT_ne_nil t), postT_last]
  · intro s hs
    obtain ⟨A, B, hAB⟩ := subtree_decomp_T t s hs
    exact ⟨A, B, hAB, postT_last s, fun j => mem_postT s j⟩
  · intro k hk
    rw [W3.1]
    exact pushAll_chain (postT t) q.next_free q.first_free hndpost k hk
  · intro hne
    rw [W3.1]
    rcases hL : postT t with _ | ⟨a, rest⟩
    · exact absurd hL hne
    · rw [hL] at hndpost
      show (pushAll (a :: rest) q.next_free q.first_free).1 a = q.first_free
      exact pushAll_head_entry a rest _ _ (List.nodup_cons.1 hndpost).1
  · intro j hj
    rw [W3.1]
    apply pushAll_nf_not_mem
    intro hcon
    exact hj ((mem_postT t j).1 hcon)

/-- C8 witness: on the concrete pool, destroying root 1 frees child 2 then
root 1, leaving the free-list head at slot 1. -/
theorem destroy_free_list_lifo_witness :
    matchesT 4 pairPool pairTree = true ∧ (nodesT pairTree).Nodup ∧
    (destroyOp 4 pairPool ⟨1, 1⟩ = some (specDestroyT 4 pairTree pairPool) ∧
     (specDestroyT 4 pairTree pairPool).first_free = pairTree.root) :=
  ⟨by decide, by decide,
    (destroy_free_list_lifo 4 pairPool pairTree ⟨1, 1⟩ (by decide) (by decide)
      (by decide) (by decide)).1,
    (destroy_free_list_lifo 4 pairPool pairTree ⟨1, 1⟩ (by decide) (by decide)
      (by decide) (by decide)).2.1⟩

/-- C10: on a pool whose links over the active slots form a forest,
`destroy` returns (the fuelled recursion never runs out): the recursion is
bounded by the finite realised subtree of the destroyed slot. -/
theorem destroy_terminates_on_forest (N : Nat) (q : ThingPool T)
    (hf : ForestPool N q) (ref : ThingRef) :
    ∃ p', destroyOp N q ref = some p' := by
  by_cases hv : isValid N q ref = false
  · exact ⟨q, by rw [destroyOp, if_pos hv]⟩
  · have hvalid : isValid N q ref = true := by
      cases h : isValid N q ref
      · exact absurd h hv
      · rfl
    obtain ⟨h1, h2, h3, h4⟩ := (isValid_eq_true_iff N q ref).1 hvalid
    obtain ⟨t, hroot, hm, hnd⟩ := hf ref.index h1 h2 h3
    refine ⟨specDestroyT N t q, destroyOp_spec N q t ref hm hnd hroot.symm ?_⟩
    rw [hroot]
    exact h4.symm

/-- C10 witness: the concrete pool's active slots (1 with child 2) form a
forest, and `destroy` on handle `(1,1)` returns. -/
theorem destroy_terminates_on_forest_witness :
    ForestPool 4 pairPool ∧ ∃ p', destroyOp 4 pairPool ⟨1, 1⟩ = some p' := by
  have hf : ForestPool 4 pairPool := by
    intro i h1 h2 hact
    interval_cases i
    · exact ⟨pairTree, rfl, by decide, by decide⟩
    · exact ⟨.mk 2 .nil, rfl, by decide, by decide⟩
    · exact absurd hact (by decide)
  exact ⟨hf, destroy_terminates_on_forest 4 pairPool hf ⟨1, 1⟩⟩

/-- C3 (failing input): in a release build, `get` on a handle to a
DESTROYED slot whose generation has not yet been bumped by reuse does NOT
resolve to slot 0's payload: `get_node` checks only index range and
generation, never `is_active`, so the invalid handle `(1,1)` of
`poolOneDestroyed` resolves to slot 1's own payload.  This contradicts the
claim (and the repository's own api.md) that every invalid handle reads
slot 0's poison payload. -/
theorem get_on_destroyed_handle_resolves_to_own_slot :
    (destroyOp 4 (spawnOp (initPool Nat 4)).1 ⟨1, 1⟩).isSome = true ∧
    isValid 4 poolOneDestroyed ⟨1, 1⟩ = false ∧
    getNodeIdx 4 poolOneDestroyed ⟨1, 1⟩ = 1 := by
  decide

/-- C4 (failing input): `attach_child` with a DESTROYED child handle whose
generation still matches is NOT a no-op: in `poolTwoSecondDestroyed` the
handle `(2,1)` is invalid, yet attaching it under the valid parent `(1,1)`
mutates the pool (the dead slot 2 acquires parent 1 and becomes slot 1's
first child).  This contradicts the claim (and the repository's own
api.md) that `attach_child` is a no-op when either handle is invalid. -/
theorem attach_child_mutates_for_destroyed_handle :
    isValid 4 poolTwoSecondDestroyed ⟨2, 1⟩ = false ∧
    (poolTwoSecondDestroyed.nodes 2).parent = 0 ∧
    (poolTwoSecondDestroyed.nodes 1).first_child = 0 ∧
    ((attachChild 4 poolTwoSecondDestroyed ⟨1, 1⟩ ⟨2, 1⟩).nodes 2).parent = 1 ∧
    ((attachChild 4 poolTwoSecondDestroyed ⟨1, 1⟩ ⟨2, 1⟩).nodes 1).first_child = 2 := by
  decide

end Louds
